import Mathlib

/-!
# Verification of the go-mod-archived core against its specification

Shallow embedding, in Lean 4, of the core of the `go-mod-archived` tool:
the identity extractor (`modparse.go`), the batch archival client
(`check.go`), the vanity resolver (`resolve.go`) and the transitive
closure analyzer (`output.go`).  Go strings are modelled as Lean
`String`s and byte-level Go string operations (`strings.SplitN`,
`strings.Fields`, ...) are re-implemented over `List Char`, which agrees
with Go's byte-level behaviour on the ASCII inputs the tool manipulates.
Go maps are modelled as association lists (first match wins on lookup;
assignment is modelled by prepending, so lookup sees the latest write).
Network and process effects (HTTP fetches, `gh auth token`) are modelled
by explicit oracle parameters, and the functions record which oracles
they actually invoke so that short-circuiting claims are statable.
-/

namespace GoModArchived

/-! ## String helpers (byte-level Go string operations over `List Char`) -/

/-- `strings.Split` on a single separator character: split semantics of Go,
`split "" = [""]`, a trailing separator yields a trailing empty field. -/
def splitChar (sep : Char) : List Char → List (List Char)
  | [] => [[]]
  | c :: cs =>
    if c = sep then [] :: splitChar sep cs
    else
      match splitChar sep cs with
      | [] => [[c]]
      | h :: t => (c :: h) :: t

/-- `strings.Join` with a single separator character. -/
def joinChar (sep : Char) : List (List Char) → List Char
  | [] => []
  | [l] => l
  | l :: ls => l ++ sep :: joinChar sep ls

/-- `strings.SplitN(s, sep, n)` for `n > 0`: at most `n` substrings, the
last one is the unsplit remainder. -/
def splitN (s : List Char) (sep : Char) (n : Nat) : List (List Char) :=
  if (splitChar sep s).length ≤ n then splitChar sep s
  else (splitChar sep s).take (n - 1) ++ [joinChar sep ((splitChar sep s).drop (n - 1))]

/-! ## Data model (`modparse.go`, `check.go`) -/

/-- `Module` from `modparse.go`: a parsed `go.mod` dependency.  The
`Deprecated` field is the deprecation message filled in by the
deprecation enrichment (`deprecated.go`). -/
structure Module where
  Path : String
  Version : String
  Direct : Bool
  Owner : String
  Repo : String
  Deprecated : String
deriving DecidableEq

/-- Timestamps.  `time.Time` is modelled as an integer tick count whose
zero value is `0` (the Go zero `time.Time`). -/
def timeZero : Int := 0

/-- `RepoStatus` from `check.go`: the GitHub status for one repository. -/
structure RepoStatus where
  Module : Module
  IsArchived : Bool
  ArchivedAt : Int
  PushedAt : Int
  NotFound : Bool
  Error : String
deriving DecidableEq

/-! ## Identity extractor (`modparse.go`) -/

/-- `extractGitHub` from `modparse.go`: extract the GitHub owner and repo
from a module path via `strings.HasPrefix` and `strings.SplitN(path, "/", 4)`. -/
def extractGitHub (path : String) : String × String :=
  if ¬ ("github.com/".toList.isPrefixOf path.toList) then ("", "")
  else if (splitN path.toList '/' 4).length < 3 then ("", "")
  else (⟨(splitN path.toList '/' 4).getD 1 []⟩, ⟨(splitN path.toList '/' 4).getD 2 []⟩)

/-- The loop body of `FilterGitHub` from `modparse.go`, iterating the
modules with the `seen` dedup set threaded through.  Returns the kept
GitHub modules and the non-GitHub count. -/
def filterGitHubAux (directOnly : Bool) : List Module → List String → List Module × Nat
  | [], _ => ([], 0)
  | m :: ms, seen =>
    if directOnly ∧ ¬ m.Direct then filterGitHubAux directOnly ms seen
    else if m.Owner = "" then
      let r := filterGitHubAux directOnly ms seen
      (r.1, r.2 + 1)
    else
      let key := m.Owner ++ "/" ++ m.Repo
      if key ∈ seen then filterGitHubAux directOnly ms seen
      else
        let r := filterGitHubAux directOnly ms (key :: seen)
        (m :: r.1, r.2)

/-- `FilterGitHub` from `modparse.go`: separates modules into GitHub and
non-GitHub, deduplicating GitHub modules by owner/repo. -/
def FilterGitHub (modules : List Module) (directOnly : Bool) : List Module × Nat :=
  filterGitHubAux directOnly modules []

/-- The owner/repo dedup key of a module, as built by `FilterGitHub`. -/
def modKey (m : Module) : String := m.Owner ++ "/" ++ m.Repo

/-! ## Batch archival client (`check.go`)

The GraphQL response envelope is modelled after the Go decoding target:
`Data` is a JSON object (association list) from alias to a nullable
repository payload, `Errors` is a list of entries carrying a message and
an alias path.  Go map assignment (`errorAliases[k] = v`) is modelled by
prepending, so that the first-match lookup `List.find?` sees the latest
write, exactly like a Go map lookup sees the last assignment.
`time.Parse(time.RFC3339, s)` is modelled by an abstract parser
`parseT : String → Option Int`; the Go code discards the parse error, so
a failed parse leaves the zero time. -/

/-- The nullable per-repository payload (`repoData` in `check.go`). -/
structure RepoDataJ where
  isArchived : Bool
  archivedAt : String
  pushedAt : String
deriving DecidableEq

/-- One entry of the GraphQL `errors` array. -/
structure GqlError where
  message : String
  path : List String
deriving DecidableEq

/-- The GraphQL response envelope (`gqlResponse` in `check.go`). -/
structure GqlResponse where
  data : List (String × Option RepoDataJ)
  errors : List GqlError
deriving DecidableEq

/-- The ordinal alias `r<i>` used to multiplex the batched query. -/
def aliasOf (i : Nat) : String := "r" ++ toString i

/-- The `errorAliases` map of `parseGraphQLResponse`: built by iterating
the error entries and assigning `errorAliases[e.Path[0]] = e.Message`
(assignment = prepend, so `List.find?` returns the latest write). -/
def errorAliasesOf (errors : List GqlError) : List (String × String) :=
  errors.foldl
    (fun acc e =>
      match e.path with
      | [] => acc
      | p :: _ => (p, e.message) :: acc)
    []

/-- The per-module body of `parseGraphQLResponse`'s result loop. -/
def statusFor (parseT : String → Option Int) (resp : GqlResponse)
    (i : Nat) (m : Module) : RepoStatus :=
  match (errorAliasesOf resp.errors).find? (fun kv => kv.1 = aliasOf i) with
  | some kv =>
    { Module := m, IsArchived := false, ArchivedAt := timeZero,
      PushedAt := timeZero, NotFound := true, Error := kv.2 }
  | none =>
    match resp.data.find? (fun kv => kv.1 = aliasOf i) with
    | some (_, some rd) =>
      { Module := m, IsArchived := rd.isArchived,
        ArchivedAt := if rd.archivedAt ≠ "" then (parseT rd.archivedAt).getD timeZero else timeZero,
        PushedAt := if rd.pushedAt ≠ "" then (parseT rd.pushedAt).getD timeZero else timeZero,
        NotFound := false, Error := "" }
    | _ =>
      { Module := m, IsArchived := false, ArchivedAt := timeZero,
        PushedAt := timeZero, NotFound := true, Error := "repository not found" }

/-- `parseGraphQLResponse` from `check.go`: convert a parsed GraphQL
response into one `RepoStatus` per module of the batch. -/
def parseGraphQLResponse (parseT : String → Option Int) (resp : GqlResponse)
    (modules : List Module) : List RepoStatus :=
  modules.enum.map (fun im => statusFor parseT resp im.1 im.2)

/-- The batch slicing of `CheckRepos`: `modules[i:min(i+batchSize, len)]`
for `i = 0, batchSize, 2*batchSize, ...`.  For `batchSize = 0` the Go
loop would not advance (it never terminates); the model returns `[]`
there, and every claim about batching assumes `batchSize ≥ 1`. -/
def chunks (batchSize : Nat) (l : List Module) : List (List Module) :=
  if _h : batchSize = 0 then []
  else
    match l with
    | [] => []
    | x :: xs =>
      (x :: xs).take batchSize :: chunks batchSize ((x :: xs).drop batchSize)
termination_by l.length
decreasing_by
  simp only [List.length_drop, List.length_cons]
  omega

/-- The per-batch loop of `CheckRepos`, with the `k`-th batch's (already
HTTP-decoded) response supplied by the oracle `respond`; `respond k = none`
models a batch-level transport/envelope failure of `queryBatch`. -/
def runBatches (parseT : String → Option Int) (respond : Nat → Option GqlResponse) :
    List (List Module) → Nat → Except String (List RepoStatus)
  | [], _ => Except.ok []
  | b :: bs, k =>
    match respond k with
    | none => Except.error ("querying batch " ++ toString k ++ " failed")
    | some resp =>
      match runBatches parseT respond bs (k + 1) with
      | Except.error e => Except.error e
      | Except.ok rest => Except.ok (parseGraphQLResponse parseT resp b ++ rest)

/-- `CheckRepos` from `check.go`.  `token` is the result of the external
credential provider (`getGHToken` via `gh auth token`; `none` = failure).
The returned `Bool` records whether the credential provider was invoked.
The empty-input early return happens before the token is fetched. -/
def CheckReposM (parseT : String → Option Int) (respond : Nat → Option GqlResponse)
    (token : Option String) (modules : List Module) (batchSize : Nat) :
    Except String (List RepoStatus) × Bool :=
  if modules = [] then (Except.ok [], false)
  else
    match token with
    | none => (Except.error "failed to get GitHub token", true)
    | some _ => (runBatches parseT respond (chunks batchSize modules) 0, true)

/-! ## Vanity resolver (`resolve.go`)

The HTTP layer is abstracted away: `resolveViaProxy`'s already-decoded
`proxyInfo` payload and `resolveViaMeta`'s list of `<meta>` tags (the
output of the `metaRe`/`attrRe` regex scan, in document order, as
name/content pairs) are oracle inputs, with `none` standing for any
network error, non-200 status or malformed payload.  `resolveOneM`
additionally reports whether the meta-tag stage was entered. -/

/-- ASCII whitespace as recognized by `strings.Fields` (`unicode.IsSpace`
restricted to ASCII). -/
def isGoSpace (c : Char) : Bool :=
  c = ' ' ∨ c = '\t' ∨ c = '\n' ∨ c = '\r' ∨ c = '\x0b' ∨ c = '\x0c'

/-- Split on every whitespace character (possibly-empty chunks). -/
def splitWS : List Char → List (List Char)
  | [] => [[]]
  | c :: cs =>
    if isGoSpace c then [] :: splitWS cs
    else
      match splitWS cs with
      | [] => [[c]]
      | h :: t => (c :: h) :: t

/-- `strings.Fields`: the maximal non-empty runs of non-whitespace
characters, i.e. split on whitespace and drop the empty chunks. -/
def fieldsChar (s : List Char) : List (List Char) :=
  (splitWS s).filter (fun f => f ≠ [])

/-- `strings.Index(s, pat)` for non-empty `pat`: index of the first
occurrence of the substring, `none` when absent. -/
def idxOfSub (pat : List Char) : List Char → Option Nat
  | [] => if pat = [] then some 0 else none
  | c :: cs =>
    if pat.isPrefixOf (c :: cs) then some 0
    else (idxOfSub pat cs).map (· + 1)

/-- `strings.TrimSuffix`: drop one trailing occurrence when present. -/
def trimSuffixOnce (suf s : List Char) : List Char :=
  if suf.isSuffixOf s then s.take (s.length - suf.length) else s

/-- `strings.TrimRight(s, "/")`: drop all trailing slashes. -/
def trimTrailingSlash (s : List Char) : List Char :=
  (s.reverse.dropWhile (fun c => c = '/')).reverse

/-- `extractGitHubFromURL` from `resolve.go`: parse a URL for
`github.com/owner/repo`, stripping scheme, `.git` suffix and trailing
slashes; both segments must be non-empty. -/
def extractGitHubFromURL (rawURL : String) : String × String :=
  if rawURL = "" then ("", "")
  else
    let s0 := rawURL.toList
    let s1 := match idxOfSub "://".toList s0 with
      | some i => s0.drop (i + 3)
      | none => s0
    if ¬ ("github.com/".toList.isPrefixOf s1) then ("", "")
    else
      let s2 := s1.drop "github.com/".toList.length
      let s3 := trimTrailingSlash (trimSuffixOnce ".git".toList s2)
      let parts := splitN s3 '/' 3
      if parts.length < 2 ∨ parts.getD 0 [] = [] ∨ parts.getD 1 [] = [] then ("", "")
      else (⟨parts.getD 0 []⟩, ⟨parts.getD 1 []⟩)

/-- `parseMetaTags` from `resolve.go`, over the regex-extracted list of
`(name, content)` attribute pairs in document order: keep the first
`go-import` and the first `go-source` content. -/
def parseMetaTags (tags : List (String × String)) : String × String :=
  tags.foldl
    (fun acc t =>
      if t.1 = "go-import" then (if acc.1 = "" then (t.2, acc.2) else acc)
      else if t.1 = "go-source" then (if acc.2 = "" then (acc.1, t.2) else acc)
      else acc)
    ("", "")

/-- The `go-source` fallback loop of `resolveViaMeta`: the first
whitespace-separated field that yields a GitHub identity. -/
def scanGoSource : List (List Char) → String × String
  | [] => ("", "")
  | p :: ps =>
    if (extractGitHubFromURL ⟨p⟩).1 ≠ "" then extractGitHubFromURL ⟨p⟩
    else scanGoSource ps

/-- The `go-import` branch of `resolveViaMeta`: content is
`"prefix vcs repo-url"`; when the content is non-empty, has at least
three whitespace-separated fields, and the third field yields a GitHub
identity, that identity is returned. -/
def goImportResult (gi : String) : Option (String × String) :=
  if gi ≠ "" then
    if (fieldsChar gi.toList).length ≥ 3 then
      if (extractGitHubFromURL ⟨(fieldsChar gi.toList).getD 2 []⟩).1 ≠ "" then
        some (extractGitHubFromURL ⟨(fieldsChar gi.toList).getD 2 []⟩)
      else none
    else none
  else none

/-- The `Origin` object of the proxy's `@latest` JSON payload. -/
structure ProxyOrigin where
  vcs : String
  url : String
deriving DecidableEq

/-- `proxyInfo` from `resolve.go`: the decoded `@latest` payload. -/
structure ProxyInfo where
  version : String
  origin : Option ProxyOrigin
deriving DecidableEq

/-- The network environment a single `resolveOne` call runs against. -/
structure ResolverEnv where
  /-- Decoded `proxy.golang.org/{module}/@latest` payload; `none` for any
  escape/network/status/decode failure in `resolveViaProxy`. -/
  proxy : Option ProxyInfo
  /-- Regex-extracted meta tags of `https://{module}?go-get=1`; `none`
  for any network/status/read failure in `resolveViaMeta`. -/
  metaTags : Option (List (String × String))

/-- `resolveViaProxy` from `resolve.go` (post-HTTP logic). -/
def resolveViaProxyM (pi : Option ProxyInfo) : String × String :=
  match pi with
  | none => ("", "")
  | some info =>
    match info.origin with
    | some o => if o.url ≠ "" then extractGitHubFromURL o.url else ("", "")
    | none => ("", "")

/-- `resolveViaMeta` from `resolve.go` (post-HTTP logic): try the third
whitespace-separated field of the first `go-import` content, then scan
every field of the first `go-source` content. -/
def resolveViaMetaM (body : Option (List (String × String))) : String × String :=
  match body with
  | none => ("", "")
  | some tags =>
    match goImportResult (parseMetaTags tags).1 with
    | some e => e
    | none =>
      if (parseMetaTags tags).2 ≠ "" then scanGoSource (fieldsChar (parseMetaTags tags).2.toList)
      else ("", "")

/-- `resolveOne` from `resolve.go`: proxy stage first, meta-tag stage only
when the proxy stage yields an empty owner.  The `Bool` records whether
the meta-tag HTTP fetch was performed. -/
def resolveOneM (env : ResolverEnv) : (String × String) × Bool :=
  if (resolveViaProxyM env.proxy).1 ≠ "" then (resolveViaProxyM env.proxy, false)
  else (resolveViaMetaM env.metaTags, true)

/-! ## Cross-dataset enrichment scheduler (`resolveAcrossModulesWithResolver`)

The scheduler's observable behaviour is deterministic: the
`pathLocations` map is built single-threaded, one worker per unique path
invokes the lookup once, and the fan-out after `wg.Wait()`/`close` is
again single-threaded, each path's result being written to all and only
that path's locations.  The model therefore computes the final state
sequentially and additionally returns the list of keys dispatched to
workers (each being exactly one `lookup` invocation). -/

/-- The `seen`-map loop shared by the scheduler's key collection and the
renderers' archived-list deduplication: keep the first occurrence of
each string, drop later ones. -/
def dedupFirstAux (seen : List String) : List String → List String
  | [] => []
  | x :: xs =>
    if x ∈ seen then dedupFirstAux seen xs
    else x :: dedupFirstAux (x :: seen) xs

/-- First-occurrence-order deduplication (the key set of the
`pathLocations` map — one entry per unique pending module path — and
the renderers' per-entry `seen` filter). -/
def dedupFirst (l : List String) : List String := dedupFirstAux [] l

/-- The paths needing enrichment (one occurrence per location with an
empty owner), in dataset order: the `pathLocations` map's key
multiset. -/
def pendingPaths (dss : List (List Module)) : List String :=
  ((dss.flatten).filter (fun m => m.Owner = "")).map Module.Path

/-- The fan-out write at one location: a location whose path resolved to
a non-empty owner receives that owner/repo; every other location is
untouched. -/
def applyLookup (lookup : String → String × String) (m : Module) : Module :=
  if m.Owner = "" ∧ (lookup m.Path).1 ≠ "" then
    { m with Owner := (lookup m.Path).1, Repo := (lookup m.Path).2 }
  else m

/-- `resolveAcrossModulesWithResolver` from `resolve.go`, with `lookup`
standing for `r.resolveOne`.  Returns the updated datasets (the
`allModules` slice of each `moduleInfo`), the resolved count, and the
list of unique keys dispatched to workers (one worker and one `lookup`
invocation per listed key; the empty list = early return, no channel
created, no worker spawned). -/
def resolveAcrossM (dss : List (List Module)) (lookup : String → String × String) :
    List (List Module) × Nat × List String :=
  if dedupFirst (pendingPaths dss) = [] then (dss, 0, [])
  else
    (dss.map (fun ds => ds.map (applyLookup lookup)),
     ((dedupFirst (pendingPaths dss)).filter (fun p => (lookup p).1 ≠ "")).length,
     dedupFirst (pendingPaths dss))

/-! ## Transitive closure analyzer (`output.go`)

The dependency graph (`go mod graph` adjacency) is an association list
from node key to child keys, modelling the Go `map[string][]string`
(first match wins on lookup, a missing key yields `nil`).  The recursive
`findArchivedTransitive` mutates a `visited` map shared across sibling
recursive calls; the embedding threads that state explicitly and uses a
fuel parameter (`none` = fuel exhausted).  Fuel `graphFuel g` is proved
sufficient, which is exactly the termination argument of the Go code:
a node, once visited, is never re-expanded. -/

/-- A `go mod graph` dependency graph. -/
abbrev Graph := List (String × List String)

/-- Go map lookup `graph[node]`: `nil` for a missing key. -/
def childrenOf (g : Graph) (node : String) : List String :=
  match g.find? (fun kv => kv.1 = node) with
  | some kv => kv.2
  | none => []

/-- `stripVersion` from `output.go`: cut at the last `"@"` when its index
is positive (`strings.LastIndex(s, "@") > 0`). -/
def stripVersion (s : String) : String :=
  match (s.toList.reverse.findIdx? (fun c => c = '@')) with
  | some j =>
    let idx := s.toList.length - 1 - j
    if idx > 0 then ⟨s.toList.take idx⟩ else s
  | none => s

/-- A pending step of the traversal: expanding one node (the body of
`findArchivedTransitive`) or running its `for _, child := range` loop
over the remaining children. -/
inductive Task where
  | node : String → Task
  | kids : List String → Task
deriving DecidableEq

/-- `findArchivedTransitive` from `output.go`, fuelled (structural in the
fuel, one unit per step; `none` = fuel exhausted).
`Task.node n` is a recursive call `findArchivedTransitive(n, ...)`:
guard on the shared `visited` map, mark the node visited, loop over
`graph[n]`.  `Task.kids cs` is the loop over the remaining children:
append the child's stripped path when archived, recurse into the child,
then continue the loop, the shared `visited` map threaded left to right.
Returns the accumulated result together with the final `visited` map. -/
def fatF : Nat → Graph → (String → Bool) → Task → List String →
    Option (List String × List String)
  | 0, _, _, _, _ => none
  | fuel + 1, g, ap, Task.node node, visited =>
    if node ∈ visited then some ([], visited)
    else fatF fuel g ap (Task.kids (childrenOf g node)) (node :: visited)
  | _ + 1, _, _, Task.kids [], visited => some ([], visited)
  | fuel + 1, g, ap, Task.kids (c :: cs), visited =>
    match fatF fuel g ap (Task.node c) visited with
    | none => none
    | some (r1, v1) =>
      match fatF fuel g ap (Task.kids cs) v1 with
      | none => none
      | some (r2, v2) =>
        let childMod := stripVersion c
        some ((if ap childMod then [childMod] else []) ++ r1 ++ r2, v2)

/-- All node keys and child entries of the graph (with multiplicity);
every node the traversal can mark visited, except the start node, is in
this list. -/
def nodeUniverse (g : Graph) : List String :=
  g.map Prod.fst ++ (g.map Prod.snd).flatten

/-- The longest child list of the graph. -/
def maxKids (g : Graph) : Nat :=
  g.foldr (fun kv acc => max kv.2.length acc) 0

/-- Universe entries not yet visited (the quantity each expansion of a
fresh node strictly decreases). -/
def unvisited (g : Graph) (visited : List String) : Nat :=
  ((nodeUniverse g).filter (fun x => ¬ x ∈ visited)).length

/-- Fuel sufficient for any `findArchivedTransitive` traversal of `g`
(proved in `fatF_graphFuel_isSome`). -/
def graphFuel (g : Graph) : Nat :=
  (maxKids g + 2) * (nodeUniverse g).length + 2

/-- `findArchivedTransitive` as the Go code's total function, run with
sufficient fuel. -/
def findArchivedTransitive (g : Graph) (ap : String → Bool)
    (node : String) (visited : List String) : List String :=
  match fatF (graphFuel g) g ap (Task.node node) visited with
  | some r => r.1
  | none => []

/-- A tree entry of `buildTree`: a direct dependency and the raw list of
archived stripped paths accumulated beneath it. -/
structure TreeEntry where
  directPath : String
  archived : List String
deriving DecidableEq

/-- Membership in the `archivedPaths` set built at the top of `buildTree`:
the path of an archived result, or the path of any module sharing the
owner/repo of an archived result (multi-path-repo propagation). -/
def isArchivedPath (results : List RepoStatus) (allModules : List Module)
    (p : String) : Bool :=
  results.any (fun r => r.IsArchived ∧ r.Module.Path = p) ∨
    allModules.any (fun m => m.Owner ≠ "" ∧ m.Path = p ∧
      results.any (fun r => r.IsArchived ∧ r.Module.Owner = m.Owner ∧ r.Module.Repo = m.Repo))

/-- Lexicographic comparison of strings by code point (Go's byte-wise
`<` on the ASCII strings the tool handles), non-strict. -/
def strLe : List Char → List Char → Bool
  | [], _ => true
  | _ :: _, [] => false
  | a :: as, b :: bs =>
    if a.toNat = b.toNat then strLe as bs else a.toNat < b.toNat

/-- Insertion step of the sort at the end of `buildTree` (`sort.Slice`
by `directPath`, modelled as a deterministic insertion sort). -/
def insertEntry (e : TreeEntry) : List TreeEntry → List TreeEntry
  | [] => [e]
  | f :: fs =>
    if strLe e.directPath.toList f.directPath.toList then e :: f :: fs
    else f :: insertEntry e fs

/-- The `sort.Slice(entries, by directPath)` call of `buildTree`. -/
def sortEntries (l : List TreeEntry) : List TreeEntry :=
  l.foldr insertEntry []

/-- The root detection of `buildTree`, with Go's `""` sentinel: the first
key containing no `"@"`, else the strict-argmax scan for the key with
the most children (a key with zero children is never selected). -/
def rootKeyFirst (g : Graph) : String :=
  match g.find? (fun kv => ¬ '@' ∈ kv.1.toList) with
  | some kv => kv.1
  | none => ""

/-- The strict-argmax scan for the key with the most children (Go's
`maxChildren`/`rootKey` loop, starting from `0`/`""`). -/
def rootKeyScan (g : Graph) : Nat × String :=
  g.foldl (fun (acc : Nat × String) kv =>
    if kv.2.length > acc.1 then (kv.2.length, kv.1) else acc) (0, "")

def rootKeyOf (g : Graph) : String :=
  if rootKeyFirst g = "" then (rootKeyScan g).2
  else rootKeyFirst g

/-- The per-child entry construction of `buildTree`: the child is kept
when it is itself archived or its traversal found archived descendants;
the attached list drops the child's own stripped path. -/
def entryOfChild (g : Graph) (ap : String → Bool) (child : String) :
    Option TreeEntry :=
  if ap (stripVersion child) = true ∨ findArchivedTransitive g ap child [] ≠ [] then
    some ⟨stripVersion child,
      (findArchivedTransitive g ap child []).filter (fun a => a ≠ stripVersion child)⟩
  else none

/-- The entry list computed by `buildTree` from `output.go` (the
`treeContext` part of its return value carries no claim content and is
omitted).  Mirrors the source: early `nil` when no result is archived,
root detection with the most-children fallback, the degraded one-entry-
per-archived-status output when no root was chosen, else one optional
entry per child of the root, sorted by direct path. -/
def buildTreeEntries (results : List RepoStatus) (g : Graph)
    (allModules : List Module) : List TreeEntry :=
  if results.all (fun r => ¬ r.IsArchived) then []
  else if rootKeyOf g = "" then
    (results.filter (fun r => r.IsArchived)).map (fun r => ⟨r.Module.Path, []⟩)
  else
    sortEntries ((childrenOf g (rootKeyOf g)).filterMap
      (entryOfChild g (isArchivedPath results allModules)))

/-! ## General lemmas about the string helpers -/

/-- `splitChar` never returns an empty list of fields. -/
theorem splitChar_ne_nil (sep : Char) (l : List Char) : splitChar sep l ≠ [] := by
  cases l with
  | nil => simp [splitChar]
  | cons c cs =>
    simp only [splitChar]
    split
    · simp
    · cases splitChar sep cs <;> simp

/-- Splitting a string that starts with a separator-free prefix followed by
the separator splits off exactly that prefix. -/
theorem splitChar_append (sep : Char) (xs ys : List Char) (h : sep ∉ xs) :
    splitChar sep (xs ++ sep :: ys) = xs :: splitChar sep ys := by
  induction xs with
  | nil => simp [splitChar]
  | cons c cs ih =>
    have hc : c ≠ sep := by rintro rfl; exact h (List.mem_cons_self _ _)
    have hcs : sep ∉ cs := fun hm => h (List.mem_cons_of_mem _ hm)
    simp only [List.cons_append, splitChar, if_neg hc]
    rw [show cs.append (sep :: ys) = cs ++ sep :: ys from rfl, ih hcs]

/-- `extractGitHub` on a path with the hosting-domain prefix picks the
first two `/`-separated components of the remainder, if the remainder
has at least two components, and yields the empty identity otherwise. -/
theorem extractGitHub_eq (p : String) (rest : List Char)
    (hp : p.toList = "github.com/".toList ++ rest) :
    extractGitHub p =
      match splitChar '/' rest with
      | s0 :: s1 :: _ => (⟨s0⟩, ⟨s1⟩)
      | _ => ("", "") := by
  have hpre : ("github.com/".toList).isPrefixOf p.toList := by
    rw [hp, List.isPrefixOf_iff_prefix]; exact List.prefix_append _ _
  have hsplit : splitChar '/' p.toList = "github.com".toList :: splitChar '/' rest := by
    rw [hp, show ("github.com/".toList) = "github.com".toList ++ ['/'] from by decide,
      List.append_assoc, List.singleton_append]
    exact splitChar_append '/' _ rest (by decide)
  rcases hS : splitChar '/' rest with _ | ⟨s0, _ | ⟨s1, ss⟩⟩
  · exact absurd hS (splitChar_ne_nil '/' rest)
  · have hparts : splitN p.toList '/' 4 = ["github.com".toList, s0] := by
      unfold splitN
      rw [hsplit, hS]
      simp
    unfold extractGitHub
    rw [if_neg (not_not_intro hpre), if_pos (by rw [hparts]; simp)]
  · have hparts : ∃ tail, splitN p.toList '/' 4 = "github.com".toList :: s0 :: s1 :: tail := by
      unfold splitN
      rw [hsplit, hS]
      by_cases hlen : ss.length ≤ 1
      · refine ⟨ss, ?_⟩
        rw [if_pos (by simp; omega)]
      · refine ⟨[joinChar '/' ss], ?_⟩
        rw [if_neg (by simp; omega)]
        simp
    obtain ⟨tail, hparts⟩ := hparts
    unfold extractGitHub
    rw [if_neg (not_not_intro hpre), if_neg (by rw [hparts]; simp), hparts]
    rfl

/-- C5, counterexample: the claim as stated is false.  The input
`"github.com//b"` starts with the hosting-domain prefix and has two
path segments after the domain (`""` and `"b"`), yet `extractGitHub`
returns the empty owner `("", "b")` — neither a non-empty owner/repo
pair nor the empty identity `("", "")`. -/
theorem c5_counterexample :
    ¬ (∀ p : String,
        ("github.com/".toList.isPrefixOf p.toList ∧
            2 ≤ (splitChar '/' (p.toList.drop "github.com/".toList.length)).length) →
          (extractGitHub p).1 ≠ "" ∧ (extractGitHub p).2 ≠ "") := by
  intro h
  exact ((h "github.com//b") (by decide)).1 (by decide)

/-- C5, amended: for every path `p` that starts with `"github.com/"`,
if splitting the remainder on `/` yields at least two components (the
Go `SplitN` view of "two path segments after the domain"),
`extractGitHub p` returns exactly those first two components — hence a
non-empty owner and repo whenever the components themselves are
non-empty, and further segments (major-version or submodule suffixes)
are stripped; with fewer than two components, or without the
hosting-domain prefix, it returns the empty identity `("", "")`. -/
theorem c5_extractGitHub :
    (∀ (p : String) (rest : List Char), p.toList = "github.com/".toList ++ rest →
      (∀ s0 s1 ss, splitChar '/' rest = s0 :: s1 :: ss →
        extractGitHub p = (⟨s0⟩, ⟨s1⟩)) ∧
      ((splitChar '/' rest).length < 2 → extractGitHub p = ("", ""))) ∧
    (∀ p : String, ¬ ("github.com/".toList.isPrefixOf p.toList) →
      extractGitHub p = ("", "")) := by
  constructor
  · intro p rest hp
    have h := extractGitHub_eq p rest hp
    constructor
    · intro s0 s1 ss hS
      rw [h, hS]
    · intro hlen
      rw [h]
      rcases hrest : splitChar '/' rest with _ | ⟨s0, _ | ⟨s1, ss⟩⟩
      · rfl
      · rfl
      · rw [hrest] at hlen; simp only [List.length_cons] at hlen; omega
  · intro p hpre
    unfold extractGitHub
    rw [if_pos hpre]

/-- C5, witness: the amended theorem applied to concrete inputs.
`"github.com/foo/bar/v2"` yields `(foo, bar)` (suffix stripped);
`"example.com/a/b"` is not on the hosting domain and yields the empty
identity. -/
theorem c5_witness :
    extractGitHub "github.com/foo/bar/v2" = ("foo", "bar") ∧
      extractGitHub "example.com/a/b" = ("", "") :=
  ⟨(c5_extractGitHub.1 "github.com/foo/bar/v2" "foo/bar/v2".toList (by decide)).1
      "foo".toList "bar".toList ["v2".toList] (by decide),
    c5_extractGitHub.2 "example.com/a/b" (by decide)⟩

/-! ## Batch archival client: claims C10 and C2 -/

/-- C10: for the empty module list, `CheckRepos` returns the nil result
and nil error without ever invoking the credential provider (the
recorded invocation flag is `false`, whatever the provider would have
returned); consequently an error — in particular the missing-credential
fatal error — can only occur when at least one module is passed. -/
theorem c10_checkRepos_empty :
    (∀ (parseT : String → Option Int) (respond : Nat → Option GqlResponse)
        (token : Option String) (B : Nat),
      CheckReposM parseT respond token [] B = (Except.ok [], false)) ∧
    (∀ (parseT : String → Option Int) (respond : Nat → Option GqlResponse)
        (token : Option String) (modules : List Module) (B : Nat) (e : String),
      (CheckReposM parseT respond token modules B).1 = Except.error e →
      modules ≠ []) := by
  refine ⟨fun _ _ _ _ => rfl, fun parseT respond token modules B e herr hnil => ?_⟩
  subst hnil
  simp [CheckReposM] at herr

/-- C10, witness: the theorem at concrete inputs — the empty list with a
failing credential provider still succeeds with the nil result and no
provider call, and a missing-credential error implies a non-empty input. -/
theorem c10_witness :
    CheckReposM (fun _ => none) (fun _ => none) none [] 5 = (Except.ok [], false) ∧
      ([{ Path := "p", Version := "v", Direct := true, Owner := "o", Repo := "r",
          Deprecated := "" }] : List Module) ≠ [] :=
  ⟨c10_checkRepos_empty.1 (fun _ => none) (fun _ => none) none 5,
    c10_checkRepos_empty.2 (fun _ => none) (fun _ => none) none _ 5
      "failed to get GitHub token" rfl⟩

/-- The batches of `CheckRepos` concatenate back to the input. -/
theorem chunks_flatten (B : Nat) (hB : 1 ≤ B) :
    ∀ l : List Module, (chunks B l).flatten = l
  | [] => by rw [chunks]; split <;> rfl
  | x :: xs => by
    rw [chunks, dif_neg (by omega)]
    simp only [List.flatten_cons]
    rw [chunks_flatten B hB ((x :: xs).drop B)]
    exact List.take_append_drop B (x :: xs)
termination_by l => l.length
decreasing_by simp only [List.length_drop, List.length_cons]; omega

/-- `CheckRepos` issues `ceil(N / B)` batches. -/
theorem chunks_length (B : Nat) (hB : 1 ≤ B) :
    ∀ l : List Module, (chunks B l).length = (l.length + B - 1) / B
  | [] => by
    rw [chunks]
    split <;> [omega; skip]
    simp only [List.length_nil]
    exact (Nat.div_eq_of_lt (by omega)).symm
  | x :: xs => by
    rw [chunks, dif_neg (by omega)]
    simp only [List.length_cons]
    rw [chunks_length B hB ((x :: xs).drop B)]
    simp only [List.length_drop, List.length_cons]
    by_cases hle : xs.length + 1 ≤ B
    · have h0 : xs.length + 1 - B = 0 := by omega
      rw [h0]
      have h2 : (0 + B - 1) / B = 0 := Nat.div_eq_of_lt (by omega)
      have h3 : xs.length + 1 + B - 1 = xs.length + B := by omega
      rw [h2, h3, Nat.add_div_right _ (show 0 < B by omega),
        Nat.div_eq_of_lt (show xs.length < B by omega)]
    · have h1 : xs.length + 1 - B + B - 1 = xs.length := by omega
      have h2 : xs.length + 1 + B - 1 = xs.length + B := by omega
      rw [h1, h2, Nat.add_div_right _ (show 0 < B by omega)]
termination_by l => l.length
decreasing_by simp only [List.length_drop, List.length_cons]; omega

/-- Each batch of `CheckRepos` has at most `batchSize` modules. -/
theorem chunks_le (B : Nat) :
    ∀ l : List Module, ∀ c ∈ chunks B l, c.length ≤ B
  | [] => by rw [chunks]; split <;> simp
  | x :: xs => by
    rw [chunks]
    split
    · simp
    · intro c hc
      rcases List.mem_cons.mp hc with rfl | hc
      · simp only [List.length_take, List.length_cons]
        exact Nat.min_le_left B (xs.length + 1)
      · exact chunks_le B ((x :: xs).drop B) c hc
termination_by l => l.length
decreasing_by simp only [List.length_drop, List.length_cons]; omega

/-- Every branch of the response interpretation attaches the batch's own
module to its status. -/
theorem statusFor_Module (parseT : String → Option Int) (resp : GqlResponse)
    (i : Nat) (m : Module) : (statusFor parseT resp i m).Module = m := by
  unfold statusFor
  split
  · rfl
  · split <;> rfl

/-- `parseGraphQLResponse` returns one status per module of the batch, in
batch order, each carrying its module. -/
theorem parseGraphQLResponse_modules (parseT : String → Option Int)
    (resp : GqlResponse) (modules : List Module) :
    (parseGraphQLResponse parseT resp modules).map RepoStatus.Module = modules := by
  unfold parseGraphQLResponse
  rw [List.map_map]
  have h : (RepoStatus.Module ∘ fun im : Nat × Module => statusFor parseT resp im.1 im.2) =
      fun im : Nat × Module => im.2 := by
    funext im
    exact statusFor_Module parseT resp im.1 im.2
  rw [h, List.enum_map_snd]

/-- When every batch query succeeds, the per-batch loop of `CheckRepos`
succeeds and returns the concatenation, in batch-submission order, of
each batch's statuses, which carry the batch modules in order. -/
theorem runBatches_ok (parseT : String → Option Int)
    (respond : Nat → Option GqlResponse) :
    ∀ (bs : List (List Module)) (k0 : Nat),
      (∀ j, j < bs.length → (respond (k0 + j)).isSome) →
      ∃ res, runBatches parseT respond bs k0 = Except.ok res ∧
        res.map RepoStatus.Module = bs.flatten := by
  intro bs
  induction bs with
  | nil => exact fun k0 _ => ⟨[], rfl, rfl⟩
  | cons b bs ih =>
    intro k0 hok
    have h0 : (respond k0).isSome := by
      rw [← Nat.add_zero k0]; exact hok 0 (by simp)
    obtain ⟨resp, hresp⟩ := Option.isSome_iff_exists.mp h0
    obtain ⟨rest, hrest, hmap⟩ := ih (k0 + 1) (fun j hj => by
      have := hok (j + 1) (by simp; omega)
      rw [show k0 + 1 + j = k0 + (j + 1) from by omega]
      exact this)
    refine ⟨parseGraphQLResponse parseT resp b ++ rest, ?_, ?_⟩
    · unfold runBatches
      rw [hresp, hrest]
    · rw [List.map_append, parseGraphQLResponse_modules, hmap, List.flatten_cons]

/-- C2: for a non-empty input and `batchSize ≥ 1`, when every per-batch
query succeeds, `CheckRepos` partitions the input into `ceil(N / B)`
consecutive batches of at most `B` modules each (concatenating back to
the input) and returns exactly `N` statuses whose `i`-th entry carries
the `i`-th input module (batch results concatenated in batch-submission
order, order preserved within each batch by ordinal alias). -/
theorem c2_checkRepos (parseT : String → Option Int)
    (respond : Nat → Option GqlResponse) (tok : String)
    (modules : List Module) (B : Nat)
    (hne : modules ≠ []) (hB : 1 ≤ B)
    (hok : ∀ j, j < (chunks B modules).length → (respond j).isSome) :
    (chunks B modules).length = (modules.length + B - 1) / B ∧
    (∀ c ∈ chunks B modules, c.length ≤ B) ∧
    (chunks B modules).flatten = modules ∧
    ∃ res, (CheckReposM parseT respond (some tok) modules B).1 = Except.ok res ∧
      res.length = modules.length ∧ res.map RepoStatus.Module = modules := by
  refine ⟨chunks_length B hB modules, chunks_le B modules, chunks_flatten B hB modules, ?_⟩
  obtain ⟨res, hres, hmap⟩ := runBatches_ok parseT respond (chunks B modules) 0
    (fun j hj => by simpa using hok j hj)
  rw [chunks_flatten B hB modules] at hmap
  refine ⟨res, ?_, ?_, hmap⟩
  · unfold CheckReposM
    rw [if_neg hne]
    exact hres
  · have := congrArg List.length hmap
    simpa using this

/-- C2, witness: three modules in batches of two — two batches, lengths
`[2, 1]`, statuses in input order. -/
theorem c2_witness :
    (chunks 2 [{ Path := "p1", Version := "", Direct := true, Owner := "o1", Repo := "r1", Deprecated := "" },
               { Path := "p2", Version := "", Direct := true, Owner := "o2", Repo := "r2", Deprecated := "" },
               { Path := "p3", Version := "", Direct := true, Owner := "o3", Repo := "r3", Deprecated := "" }]).length
        = (3 + 2 - 1) / 2 ∧
    (∀ c ∈ chunks 2 [{ Path := "p1", Version := "", Direct := true, Owner := "o1", Repo := "r1", Deprecated := "" },
               { Path := "p2", Version := "", Direct := true, Owner := "o2", Repo := "r2", Deprecated := "" },
               { Path := "p3", Version := "", Direct := true, Owner := "o3", Repo := "r3", Deprecated := "" }], c.length ≤ 2) ∧
    (chunks 2 [{ Path := "p1", Version := "", Direct := true, Owner := "o1", Repo := "r1", Deprecated := "" },
               { Path := "p2", Version := "", Direct := true, Owner := "o2", Repo := "r2", Deprecated := "" },
               { Path := "p3", Version := "", Direct := true, Owner := "o3", Repo := "r3", Deprecated := "" }]).flatten
        = [{ Path := "p1", Version := "", Direct := true, Owner := "o1", Repo := "r1", Deprecated := "" },
           { Path := "p2", Version := "", Direct := true, Owner := "o2", Repo := "r2", Deprecated := "" },
           { Path := "p3", Version := "", Direct := true, Owner := "o3", Repo := "r3", Deprecated := "" }] ∧
    ∃ res, (CheckReposM (fun _ => none) (fun _ => some ⟨[], []⟩) (some "tok")
        [{ Path := "p1", Version := "", Direct := true, Owner := "o1", Repo := "r1", Deprecated := "" },
         { Path := "p2", Version := "", Direct := true, Owner := "o2", Repo := "r2", Deprecated := "" },
         { Path := "p3", Version := "", Direct := true, Owner := "o3", Repo := "r3", Deprecated := "" }] 2).1 = Except.ok res ∧
      res.length = 3 ∧ res.map RepoStatus.Module =
        [{ Path := "p1", Version := "", Direct := true, Owner := "o1", Repo := "r1", Deprecated := "" },
         { Path := "p2", Version := "", Direct := true, Owner := "o2", Repo := "r2", Deprecated := "" },
         { Path := "p3", Version := "", Direct := true, Owner := "o3", Repo := "r3", Deprecated := "" }] :=
  c2_checkRepos (fun _ => none) (fun _ => some ⟨[], []⟩) "tok" _ 2
    (by decide) (by decide) (fun j _ => rfl)

/-! ## Batch archival client: claim C3 -/

/-- The `errorAliases` map lookup equals "the message of the last error
entry whose first path element is the alias" (later entries overwrite
earlier ones in the Go map). -/
theorem errorAliasesOf_find? (errors : List GqlError) (al : String) :
    (errorAliasesOf errors).find? (fun kv => kv.1 = al) =
      ((errors.filter (fun e => e.path.head? = some al)).getLast?).map
        (fun e => (al, e.message)) := by
  induction errors using List.reverseRecOn with
  | nil => rfl
  | append_singleton es e ih =>
    have hfold : errorAliasesOf (es ++ [e]) =
        (match e.path with
         | [] => errorAliasesOf es
         | p :: _ => (p, e.message) :: errorAliasesOf es) := by
      unfold errorAliasesOf
      rw [List.foldl_append]
      rfl
    rcases hp : e.path with _ | ⟨p, rest⟩
    · rw [hfold, hp, List.filter_append]
      have hf : List.filter (fun e => e.path.head? = some al) [e] = [] := by
        simp [List.filter, hp]
      rw [hf, List.append_nil]
      exact ih
    · rw [hfold, hp]
      by_cases hpal : p = al
      · subst hpal
        rw [List.find?_cons_of_pos _ (by simp), List.filter_append]
        have hf : List.filter (fun e => e.path.head? = some p) [e] = [e] := by
          simp [List.filter, hp]
        rw [hf, List.getLast?_concat]
        rfl
      · rw [List.find?_cons_of_neg _ (by simp [hpal]), List.filter_append]
        have hf : List.filter (fun e => e.path.head? = some al) [e] = [] := by
          simp [List.filter, hp, hpal]
        rw [hf, List.append_nil]
        exact ih

/-- C3: for the `i`-th module of a batch, `parseGraphQLResponse` yields
the status determined by the alias `r<i>`: if `r<i>` is the first path
element of some errors entry, `NotFound` is set and `Error` carries that
entry's message (the last such entry — later map writes overwrite
earlier ones); otherwise, if `data` holds a non-null object for `r<i>`,
`IsArchived` mirrors the payload and `ArchivedAt`/`PushedAt` are the
RFC3339 parses of the non-empty strings, a parse failure (or empty
string) leaving the zero time, and the batch never fails; otherwise
`NotFound` is set with the default message `"repository not found"`. -/
theorem c3_parseGraphQLResponse (parseT : String → Option Int)
    (resp : GqlResponse) (modules : List Module) (i : Nat) (m : Module)
    (hm : modules[i]? = some m) :
    ∃ st, (parseGraphQLResponse parseT resp modules)[i]? = some st ∧
      st.Module = m ∧
      (∀ e, (resp.errors.filter (fun e => e.path.head? = some (aliasOf i))).getLast? = some e →
        st.NotFound = true ∧ st.Error = e.message ∧ st.IsArchived = false) ∧
      ((resp.errors.filter (fun e => e.path.head? = some (aliasOf i))) = [] →
        (∀ k rd, resp.data.find? (fun kv => kv.1 = aliasOf i) = some (k, some rd) →
          st.NotFound = false ∧ st.IsArchived = rd.isArchived ∧
          st.ArchivedAt = (if rd.archivedAt ≠ "" then (parseT rd.archivedAt).getD timeZero else timeZero) ∧
          st.PushedAt = (if rd.pushedAt ≠ "" then (parseT rd.pushedAt).getD timeZero else timeZero)) ∧
        (∀ k, resp.data.find? (fun kv => kv.1 = aliasOf i) = some (k, none) →
          st.NotFound = true ∧ st.Error = "repository not found") ∧
        (resp.data.find? (fun kv => kv.1 = aliasOf i) = none →
          st.NotFound = true ∧ st.Error = "repository not found")) := by
  refine ⟨statusFor parseT resp i m, ?_, statusFor_Module parseT resp i m, ?_, ?_⟩
  · unfold parseGraphQLResponse
    rw [List.getElem?_map]
    have henum : modules.enum[i]? = some (i, m) := by
      rw [List.getElem?_enum, hm]
      rfl
    rw [henum]
    rfl
  · intro e hlast
    unfold statusFor
    rw [errorAliasesOf_find? resp.errors (aliasOf i), hlast]
    exact ⟨rfl, rfl, rfl⟩
  · intro hnoerr
    have hfind : (errorAliasesOf resp.errors).find? (fun kv => kv.1 = aliasOf i) = none := by
      rw [errorAliasesOf_find? resp.errors (aliasOf i), hnoerr]
      rfl
    refine ⟨?_, ?_, ?_⟩
    · intro k rd hdata
      unfold statusFor
      rw [hfind, hdata]
      exact ⟨rfl, rfl, rfl, rfl⟩
    · intro k hdata
      unfold statusFor
      rw [hfind, hdata]
      exact ⟨rfl, rfl⟩
    · intro hdata
      unfold statusFor
      rw [hfind, hdata]
      exact ⟨rfl, rfl⟩

/-- C3, witness: a two-module batch where alias `r0` carries an error
entry and `r1` carries data (`isArchived = true`, an unparseable
`archivedAt` left at the zero time, `pushedAt` parsed). -/
theorem c3_witness :
    ∃ st, (parseGraphQLResponse
        (fun s => if s = "2024-01-01T00:00:00Z" then some 17 else none)
        ⟨[("r1", some ⟨true, "bogus", "2024-01-01T00:00:00Z"⟩)],
         [⟨"Could not resolve", ["r0"]⟩]⟩
        [{ Path := "a", Version := "", Direct := true, Owner := "oa", Repo := "ra", Deprecated := "" },
         { Path := "b", Version := "", Direct := true, Owner := "ob", Repo := "rb", Deprecated := "" }])[1]?
        = some st ∧
      st.Module = { Path := "b", Version := "", Direct := true, Owner := "ob", Repo := "rb", Deprecated := "" } ∧
      st.NotFound = false ∧ st.IsArchived = true ∧
      st.ArchivedAt = timeZero ∧ st.PushedAt = 17 := by
  obtain ⟨st, h1, h2, _, h4⟩ := c3_parseGraphQLResponse
    (fun s => if s = "2024-01-01T00:00:00Z" then some 17 else none)
    ⟨[("r1", some ⟨true, "bogus", "2024-01-01T00:00:00Z"⟩)],
     [⟨"Could not resolve", ["r0"]⟩]⟩
    [{ Path := "a", Version := "", Direct := true, Owner := "oa", Repo := "ra", Deprecated := "" },
     { Path := "b", Version := "", Direct := true, Owner := "ob", Repo := "rb", Deprecated := "" }]
    1 _ rfl
  obtain ⟨hnf, hia, haa, hpa⟩ := (h4 (by decide)).1 "r1" ⟨true, "bogus", "2024-01-01T00:00:00Z"⟩ (by decide)
  exact ⟨st, h1, h2, hnf, hia, by rw [haa]; decide, by rw [hpa]; decide⟩

/-! ## Identity extractor: claim C6 (`FilterGitHub`) -/

/-- The non-GitHub count of the filter loop: one per module that passes
the `directOnly` drop and has an empty owner, whatever the `seen` set. -/
theorem filterGitHubAux_count (directOnly : Bool) :
    ∀ (ms : List Module) (seen : List String),
      (filterGitHubAux directOnly ms seen).2 =
        (ms.filter (fun m => decide ((directOnly = true → m.Direct = true) ∧ m.Owner = ""))).length := by
  intro ms
  induction ms with
  | nil => intro seen; rfl
  | cons m ms ih =>
    intro seen
    simp only [filterGitHubAux, List.filter_cons, decide_eq_true_eq]
    by_cases hd : directOnly = true ∧ ¬ m.Direct = true
    · rw [if_pos hd,
        if_neg (show ¬((directOnly = true → m.Direct = true) ∧ m.Owner = "") from
          fun h => hd.2 (h.1 hd.1))]
      exact ih seen
    · have hdp : directOnly = true → m.Direct = true := fun h => by
        by_contra hc; exact hd ⟨h, hc⟩
      rw [if_neg hd]
      by_cases ho : m.Owner = ""
      · rw [if_pos ho,
          if_pos (show (directOnly = true → m.Direct = true) ∧ m.Owner = "" from ⟨hdp, ho⟩)]
        simp only [List.length_cons]
        rw [ih seen]
      · rw [if_neg ho,
          if_neg (show ¬((directOnly = true → m.Direct = true) ∧ m.Owner = "") from
            fun h => ho h.2)]
        split
        · exact ih seen
        · exact ih _

/-- The kept list of the filter loop is a sublist of the input. -/
theorem filterGitHubAux_sublist (directOnly : Bool) :
    ∀ (ms : List Module) (seen : List String),
      List.Sublist (filterGitHubAux directOnly ms seen).1 ms := by
  intro ms
  induction ms with
  | nil => intro seen; simp [filterGitHubAux]
  | cons m ms ih =>
    intro seen
    simp only [filterGitHubAux]
    by_cases hd : (directOnly : Prop) ∧ ¬ m.Direct
    · rw [if_pos hd]; exact (ih seen).cons m
    · rw [if_neg hd]
      by_cases ho : m.Owner = ""
      · rw [if_pos ho]; exact (ih seen).cons m
      · rw [if_neg ho]
        split
        · exact (ih seen).cons m
        · exact (ih _).cons₂ m

/-- Every module kept by the filter loop has a non-empty owner and, when
`directOnly` is set, is a direct dependency. -/
theorem filterGitHubAux_mem (directOnly : Bool) :
    ∀ (ms : List Module) (seen : List String), ∀ m ∈ (filterGitHubAux directOnly ms seen).1,
      m.Owner ≠ "" ∧ (directOnly → m.Direct) := by
  intro ms
  induction ms with
  | nil => intro seen m hm; simp [filterGitHubAux] at hm
  | cons m0 ms ih =>
    intro seen m hm
    simp only [filterGitHubAux] at hm
    by_cases hd : (directOnly : Prop) ∧ ¬ m0.Direct
    · rw [if_pos hd] at hm; exact ih seen m hm
    · rw [if_neg hd] at hm
      by_cases ho : m0.Owner = ""
      · rw [if_pos ho] at hm; exact ih seen m hm
      · rw [if_neg ho] at hm
        by_cases hs : (m0.Owner ++ "/" ++ m0.Repo) ∈ seen
        · rw [if_pos hs] at hm; exact ih seen m hm
        · rw [if_neg hs] at hm
          rcases List.mem_cons.mp hm with rfl | hm
          · exact ⟨ho, fun h => by
              rcases not_and_or.mp hd with h' | h' <;> simp_all⟩
          · exact ih _ m hm

/-- Per-identity characterization of the filter loop: among the entries
passing the `directOnly` and empty-owner drops, the first one with a
given owner/repo key is kept (unless the key is already in `seen`) and
all later ones are dropped. -/
theorem filterGitHubAux_key (directOnly : Bool) :
    ∀ (ms : List Module) (seen : List String) (k : String),
      (filterGitHubAux directOnly ms seen).1.filter (fun m => decide (modKey m = k)) =
        if k ∈ seen then []
        else ((ms.filter (fun m => decide ((directOnly = true → m.Direct = true) ∧ m.Owner ≠ ""))).filter
          (fun m => decide (modKey m = k))).take 1 := by
  intro ms
  induction ms with
  | nil =>
    intro seen k
    simp only [filterGitHubAux, List.filter_nil, List.take_nil]
    split <;> rfl
  | cons m ms ih =>
    intro seen k
    simp only [filterGitHubAux, List.filter_cons, decide_eq_true_eq]
    by_cases hd : directOnly = true ∧ ¬ m.Direct = true
    · rw [if_pos hd,
        if_neg (show ¬((directOnly = true → m.Direct = true) ∧ m.Owner ≠ "") from
          fun h => hd.2 (h.1 hd.1))]
      exact ih seen k
    · have hdp : directOnly = true → m.Direct = true := fun h => by
        by_contra hc; exact hd ⟨h, hc⟩
      rw [if_neg hd]
      by_cases ho : m.Owner = ""
      · rw [if_pos ho,
          if_neg (show ¬((directOnly = true → m.Direct = true) ∧ m.Owner ≠ "") from
            fun h => h.2 ho)]
        exact ih seen k
      · rw [if_neg ho,
          if_pos (⟨hdp, ho⟩ : (directOnly = true → m.Direct = true) ∧ m.Owner ≠ "")]
        simp only [List.filter_cons, decide_eq_true_eq]
        by_cases hs : (m.Owner ++ "/" ++ m.Repo) ∈ seen
        · rw [if_pos hs, ih seen k]
          by_cases hkk : modKey m = k
          · have hkseen : k ∈ seen := by rw [← hkk]; exact hs
            rw [if_pos hkseen, if_pos hkseen]
          · rw [if_neg hkk]
        · rw [if_neg hs]
          have hfst : ((m :: (filterGitHubAux directOnly ms ((m.Owner ++ "/" ++ m.Repo) :: seen)).1,
              (filterGitHubAux directOnly ms ((m.Owner ++ "/" ++ m.Repo) :: seen)).2) :
              List Module × Nat).1 =
              m :: (filterGitHubAux directOnly ms ((m.Owner ++ "/" ++ m.Repo) :: seen)).1 := rfl
          rw [hfst]
          simp only [List.filter_cons, decide_eq_true_eq]
          by_cases hkk : modKey m = k
          · rw [if_pos hkk, if_pos hkk]
            have hrec := ih ((m.Owner ++ "/" ++ m.Repo) :: seen) k
            rw [if_pos (by rw [← hkk]; exact List.mem_cons_self _ _)] at hrec
            rw [hrec]
            rw [if_neg (show ¬ k ∈ seen from by rw [← hkk]; exact hs)]
            rfl
          · rw [if_neg hkk, if_neg hkk]
            have hrec := ih ((m.Owner ++ "/" ++ m.Repo) :: seen) k
            by_cases hkseen : k ∈ seen
            · rw [if_pos (List.mem_cons_of_mem _ hkseen)] at hrec
              rw [hrec, if_pos hkseen]
            · rw [if_neg (show ¬ k ∈ (m.Owner ++ "/" ++ m.Repo) :: seen from fun hmem => by
                rcases List.mem_cons.mp hmem with h | h
                · exact hkk h.symm
                · exact hkseen h)] at hrec
              rw [hrec, if_neg hkseen]

/-- C6: `FilterGitHub` iterates the input in original order (the result
is a sublist of the input); with `directOnly` set, indirect entries are
dropped before any counting; the non-GitHub count is exactly the number
of surviving entries with an empty owner, which never reach the result;
and among surviving entries sharing an owner/repo identity exactly the
first one in input order is kept (its version and direct flag intact,
being the whole entry), later duplicates being dropped. -/
theorem c6_filterGitHub (modules : List Module) (directOnly : Bool) :
    (FilterGitHub modules directOnly).2 =
      (modules.filter (fun m => decide ((directOnly → m.Direct) ∧ m.Owner = ""))).length ∧
    List.Sublist (FilterGitHub modules directOnly).1 modules ∧
    (∀ m ∈ (FilterGitHub modules directOnly).1, m.Owner ≠ "" ∧ (directOnly → m.Direct)) ∧
    (∀ k : String, (FilterGitHub modules directOnly).1.filter (fun m => decide (modKey m = k)) =
      ((modules.filter (fun m => decide ((directOnly → m.Direct) ∧ m.Owner ≠ ""))).filter
        (fun m => decide (modKey m = k))).take 1) :=
  ⟨filterGitHubAux_count directOnly modules [],
   filterGitHubAux_sublist directOnly modules [],
   filterGitHubAux_mem directOnly modules [],
   fun k => by
     have h := filterGitHubAux_key directOnly modules [] k
     rw [if_neg (List.not_mem_nil k)] at h
     exact h⟩

/-- C6, witness: the theorem applied to a concrete list with a vanity
(empty-owner) entry and a duplicate identity. -/
theorem c6_witness :
    List.Sublist (FilterGitHub
      [{ Path := "github.com/oa/ra", Version := "v1", Direct := true, Owner := "oa", Repo := "ra", Deprecated := "" },
       { Path := "example.org/x", Version := "v1", Direct := true, Owner := "", Repo := "", Deprecated := "" },
       { Path := "github.com/oa/ra/v2", Version := "v2", Direct := true, Owner := "oa", Repo := "ra", Deprecated := "" }] true).1
      [{ Path := "github.com/oa/ra", Version := "v1", Direct := true, Owner := "oa", Repo := "ra", Deprecated := "" },
       { Path := "example.org/x", Version := "v1", Direct := true, Owner := "", Repo := "", Deprecated := "" },
       { Path := "github.com/oa/ra/v2", Version := "v2", Direct := true, Owner := "oa", Repo := "ra", Deprecated := "" }] ∧
    (∀ m ∈ (FilterGitHub
      [{ Path := "github.com/oa/ra", Version := "v1", Direct := true, Owner := "oa", Repo := "ra", Deprecated := "" },
       { Path := "example.org/x", Version := "v1", Direct := true, Owner := "", Repo := "", Deprecated := "" },
       { Path := "github.com/oa/ra/v2", Version := "v2", Direct := true, Owner := "oa", Repo := "ra", Deprecated := "" }] true).1,
      m.Owner ≠ "" ∧ (true = true → m.Direct = true)) :=
  ⟨(c6_filterGitHub _ true).2.1, (c6_filterGitHub _ true).2.2.1⟩

/-! ## Vanity resolver: claim C7 -/

/-- The `go-source` scan returns the first whitespace-separated field
yielding a GitHub identity, and the empty identity when none does. -/
theorem scanGoSource_eq_find? (ps : List (List Char)) :
    scanGoSource ps =
      match ps.find? (fun p => decide ((extractGitHubFromURL ⟨p⟩).1 ≠ "")) with
      | some p => extractGitHubFromURL ⟨p⟩
      | none => ("", "") := by
  induction ps with
  | nil => rfl
  | cons p ps ih =>
    simp only [scanGoSource]
    by_cases hp : (extractGitHubFromURL ⟨p⟩).1 ≠ ""
    · rw [if_pos hp, List.find?_cons_of_pos _ (by simpa using hp)]
    · rw [if_neg hp, List.find?_cons_of_neg _ (by simpa using hp)]
      exact ih

/-- C7: `resolveOne` is two-stage and short-circuiting.  A non-empty
proxy identity (extracted from `Origin.URL`) is returned without the
meta-tag fetch (fetch flag `false`); only an empty proxy identity runs
the meta-tag stage (fetch flag `true`), which first tries the third
whitespace-separated field of the first `go-import` content and, when
that stage is missing or yields no hosting identity, returns the result
for the first whitespace-separated field of the first `go-source`
content yielding a hosting identity, or the empty identity. -/
theorem c7_resolveOne :
    (∀ env : ResolverEnv, (resolveViaProxyM env.proxy).1 ≠ "" →
      resolveOneM env = (resolveViaProxyM env.proxy, false)) ∧
    (∀ env : ResolverEnv, (resolveViaProxyM env.proxy).1 = "" →
      resolveOneM env = (resolveViaMetaM env.metaTags, true)) ∧
    (∀ (v : String) (o : ProxyOrigin), o.url ≠ "" →
      resolveViaProxyM (some ⟨v, some o⟩) = extractGitHubFromURL o.url) ∧
    (∀ tags : List (String × String), ∀ e,
      goImportResult (parseMetaTags tags).1 = some e →
      resolveViaMetaM (some tags) = e) ∧
    (∀ tags : List (String × String),
      goImportResult (parseMetaTags tags).1 = none →
      resolveViaMetaM (some tags) =
        match (fieldsChar (parseMetaTags tags).2.toList).find?
            (fun p => decide ((extractGitHubFromURL ⟨p⟩).1 ≠ "")) with
        | some p => extractGitHubFromURL ⟨p⟩
        | none => ("", "")) := by
  refine ⟨?_, ?_, ?_, ?_, ?_⟩
  · intro env h
    unfold resolveOneM
    rw [if_pos h]
  · intro env h
    unfold resolveOneM
    rw [if_neg (by rw [h]; exact fun hc => hc rfl)]
  · intro v o h
    show (if o.url ≠ "" then extractGitHubFromURL o.url else ("", "")) =
      extractGitHubFromURL o.url
    rw [if_pos h]
  · intro tags e h
    show (match goImportResult (parseMetaTags tags).1 with
      | some e => e
      | none =>
        if (parseMetaTags tags).2 ≠ "" then scanGoSource (fieldsChar (parseMetaTags tags).2.toList)
        else ("", "")) = e
    rw [h]
  · intro tags h
    show (match goImportResult (parseMetaTags tags).1 with
      | some e => e
      | none =>
        if (parseMetaTags tags).2 ≠ "" then scanGoSource (fieldsChar (parseMetaTags tags).2.toList)
        else ("", "")) = _
    rw [h, ← scanGoSource_eq_find?]
    by_cases hgs : (parseMetaTags tags).2 ≠ ""
    · rw [if_pos hgs]
    · rw [if_neg hgs]
      have hval : (parseMetaTags tags).2 = "" := by
        by_contra hc; exact hgs hc
      rw [hval]
      rfl

/-- C7, witness: a proxy origin pointing at GitHub short-circuits (no
meta fetch even though meta tags are available); with no proxy payload,
the resolver falls back to scanning `go-source` fields after a
self-referential `go-import` yields nothing. -/
theorem c7_witness :
    resolveOneM ⟨some ⟨"v1.0.0", some ⟨"git", "https://github.com/owner/repo"⟩⟩,
        some [("go-import", "vanity.example/pkg git https://vanity.example/pkg")]⟩ =
      (("owner", "repo"), false) ∧
    resolveOneM ⟨none,
        some [("go-import", "vanity.example/pkg git https://vanity.example/pkg"),
              ("go-source", "vanity.example/pkg https://github.com/owner/repo https://github.com/owner/repo/tree")]⟩ =
      (("owner", "repo"), true) := by
  constructor
  · have h := c7_resolveOne.1
      ⟨some ⟨"v1.0.0", some ⟨"git", "https://github.com/owner/repo"⟩⟩,
        some [("go-import", "vanity.example/pkg git https://vanity.example/pkg")]⟩
      (by decide)
    exact h.trans (by decide)
  · have h := c7_resolveOne.2.1
      ⟨none,
        some [("go-import", "vanity.example/pkg git https://vanity.example/pkg"),
              ("go-source", "vanity.example/pkg https://github.com/owner/repo https://github.com/owner/repo/tree")]⟩
      (by decide)
    exact h.trans (by decide)

/-! ## Enrichment scheduler: claim C9 -/

/-- Membership in the `seen`-loop output: the kept strings are exactly
the input strings not already seen. -/
theorem mem_dedupFirstAux :
    ∀ (xs : List String) (seen : List String) (a : String),
      a ∈ dedupFirstAux seen xs ↔ a ∈ xs ∧ ¬ a ∈ seen := by
  intro xs
  induction xs with
  | nil => intro seen a; simp [dedupFirstAux]
  | cons x xs ih =>
    intro seen a
    simp only [dedupFirstAux]
    by_cases hx : x ∈ seen
    · rw [if_pos hx, ih seen a]
      constructor
      · exact fun ⟨h1, h2⟩ => ⟨List.mem_cons_of_mem _ h1, h2⟩
      · rintro ⟨h1, h2⟩
        rcases List.mem_cons.mp h1 with rfl | h1
        · exact absurd hx h2
        · exact ⟨h1, h2⟩
    · rw [if_neg hx]
      constructor
      · intro h
        rcases List.mem_cons.mp h with rfl | h
        · exact ⟨List.mem_cons_self _ _, hx⟩
        · obtain ⟨h1, h2⟩ := (ih (x :: seen) a).mp h
          exact ⟨List.mem_cons_of_mem _ h1,
            fun hc => h2 (List.mem_cons_of_mem _ hc)⟩
      · rintro ⟨h1, h2⟩
        rcases List.mem_cons.mp h1 with rfl | h1
        · exact List.mem_cons_self _ _
        · by_cases hax : a = x
          · exact hax ▸ List.mem_cons_self _ _
          · exact List.mem_cons_of_mem _ ((ih (x :: seen) a).mpr
              ⟨h1, fun hc => by
                rcases List.mem_cons.mp hc with h | h
                · exact hax h
                · exact h2 h⟩)

/-- The `seen`-loop output has no duplicates. -/
theorem dedupFirstAux_nodup :
    ∀ (xs : List String) (seen : List String), (dedupFirstAux seen xs).Nodup := by
  intro xs
  induction xs with
  | nil => intro seen; exact List.nodup_nil
  | cons x xs ih =>
    intro seen
    simp only [dedupFirstAux]
    by_cases hx : x ∈ seen
    · rw [if_pos hx]; exact ih seen
    · rw [if_neg hx]
      refine List.nodup_cons.mpr ⟨?_, ih (x :: seen)⟩
      intro hmem
      exact ((mem_dedupFirstAux xs (x :: seen) x).mp hmem).2 (List.mem_cons_self _ _)

/-- The `seen`-loop output is a sublist of the input: first-discovery
order is preserved. -/
theorem dedupFirstAux_sublist :
    ∀ (xs : List String) (seen : List String),
      List.Sublist (dedupFirstAux seen xs) xs := by
  intro xs
  induction xs with
  | nil => intro seen; exact List.Sublist.refl []
  | cons x xs ih =>
    intro seen
    simp only [dedupFirstAux]
    by_cases hx : x ∈ seen
    · rw [if_pos hx]; exact (ih seen).cons x
    · rw [if_neg hx]; exact (ih (x :: seen)).cons₂ x

/-- First-occurrence deduplication produces no duplicates. -/
theorem dedupFirst_nodup (l : List String) : (dedupFirst l).Nodup :=
  dedupFirstAux_nodup l []

/-- Membership is preserved by first-occurrence deduplication. -/
theorem mem_dedupFirst (l : List String) (a : String) : a ∈ dedupFirst l ↔ a ∈ l := by
  rw [dedupFirst, mem_dedupFirstAux]
  simp

/-- Membership in the pending-path list: exactly the paths of
empty-owner locations across the datasets. -/
theorem mem_pendingPaths (dss : List (List Module)) (p : String) :
    p ∈ pendingPaths dss ↔ ∃ ds ∈ dss, ∃ m ∈ ds, m.Owner = "" ∧ m.Path = p := by
  unfold pendingPaths
  simp only [List.mem_map, List.mem_filter, List.mem_flatten, decide_eq_true_eq]
  constructor
  · rintro ⟨m, ⟨⟨ds, hds, hm⟩, how⟩, hp⟩
    exact ⟨ds, hds, m, hm, how, hp⟩
  · rintro ⟨ds, hds, m, hm, how, hp⟩
    exact ⟨m, ⟨⟨ds, hds, hm⟩, how⟩, hp⟩

/-- `dedupFirst` is empty exactly on the empty list. -/
theorem dedupFirst_eq_nil (l : List String) : dedupFirst l = [] ↔ l = [] := by
  cases l with
  | nil => simp [dedupFirst, dedupFirstAux]
  | cons x xs =>
    simp only [dedupFirst, dedupFirstAux, List.not_mem_nil, if_neg (List.not_mem_nil x)]
    constructor
    · intro h; cases h
    · intro h; cases h

/-- C9: in the cross-dataset enrichment scheduler, the per-key lookup is
dispatched exactly once per unique pending key (the dispatched-key list
has no duplicates and holds exactly the paths of empty-owner locations);
once the scheduler returns, a location whose key resolved holds exactly
the lookup's result — so any two locations sharing a key hold the same
owner/repo — while failed keys and already-resolved locations are
untouched; and when no location needs enrichment the scheduler returns
the datasets unchanged with zero lookups (no channel, no worker). -/
theorem c9_resolveAcross (dss : List (List Module)) (lookup : String → String × String) :
    ((resolveAcrossM dss lookup).2.2).Nodup ∧
    (∀ p, p ∈ (resolveAcrossM dss lookup).2.2 ↔
      ∃ ds ∈ dss, ∃ m ∈ ds, m.Owner = "" ∧ m.Path = p) ∧
    (∀ (i j : Nat) (m : Module), ((dss[i]?).bind (fun ds => ds[j]?)) = some m →
      (m.Owner = "" → (lookup m.Path).1 ≠ "" →
        (((resolveAcrossM dss lookup).1[i]?).bind (fun ds => ds[j]?)) =
          some { m with Owner := (lookup m.Path).1, Repo := (lookup m.Path).2 }) ∧
      (m.Owner = "" → (lookup m.Path).1 = "" →
        (((resolveAcrossM dss lookup).1[i]?).bind (fun ds => ds[j]?)) = some m) ∧
      (m.Owner ≠ "" →
        (((resolveAcrossM dss lookup).1[i]?).bind (fun ds => ds[j]?)) = some m)) ∧
    (∀ (i j i' j' : Nat) (m m' : Module), ((dss[i]?).bind (fun ds => ds[j]?)) = some m →
      ((dss[i']?).bind (fun ds => ds[j']?)) = some m' →
      m.Owner = "" → m'.Owner = "" → m.Path = m'.Path → (lookup m.Path).1 ≠ "" →
      ∃ u u',
        (((resolveAcrossM dss lookup).1[i]?).bind (fun ds => ds[j]?)) = some u ∧
        (((resolveAcrossM dss lookup).1[i']?).bind (fun ds => ds[j']?)) = some u' ∧
        u.Owner = u'.Owner ∧ u.Repo = u'.Repo) ∧
    ((∀ ds ∈ dss, ∀ m ∈ ds, m.Owner ≠ "") →
      resolveAcrossM dss lookup = (dss, 0, [])) := by
  have hupd : ∀ (i j : Nat) (m : Module), ((dss[i]?).bind (fun ds => ds[j]?)) = some m →
      (((dss.map (fun ds => ds.map (applyLookup lookup)))[i]?).bind (fun ds => ds[j]?)) =
        some (applyLookup lookup m) := by
    intro i j m h
    rcases hds : dss[i]? with _ | ds
    · rw [hds] at h; cases h
    · rw [hds] at h
      rw [Option.some_bind] at h
      rw [List.getElem?_map, hds]
      show ((some (ds.map (applyLookup lookup))).bind (fun ds => ds[j]?)) = _
      rw [Option.some_bind, List.getElem?_map, h]
      rfl
  have hmem : ∀ (i j : Nat) (m : Module), ((dss[i]?).bind (fun ds => ds[j]?)) = some m →
      ∃ ds ∈ dss, m ∈ ds := by
    intro i j m h
    rcases hds : dss[i]? with _ | ds
    · rw [hds] at h; cases h
    · rw [hds] at h
      rw [Option.some_bind] at h
      exact ⟨ds, List.getElem?_mem hds, List.getElem?_mem h⟩
  by_cases hnil : dedupFirst (pendingPaths dss) = []
  · have hpend : pendingPaths dss = [] := (dedupFirst_eq_nil _).mp hnil
    have hres : resolveAcrossM dss lookup = (dss, 0, []) := by
      unfold resolveAcrossM; rw [if_pos hnil]
    refine ⟨by rw [hres]; exact List.nodup_nil, ?_, ?_, ?_, fun _ => hres⟩
    · intro p
      rw [hres]
      simp only [List.not_mem_nil, false_iff]
      rintro ⟨ds, hds, m, hm, how, hp⟩
      have : p ∈ pendingPaths dss := (mem_pendingPaths dss p).mpr ⟨ds, hds, m, hm, how, hp⟩
      rw [hpend] at this
      exact absurd this (List.not_mem_nil p)
    · intro i j m h
      refine ⟨?_, ?_, ?_⟩ <;> intro how
      · obtain ⟨ds, hds, hm⟩ := hmem i j m h
        have : m.Path ∈ pendingPaths dss :=
          (mem_pendingPaths dss m.Path).mpr ⟨ds, hds, m, hm, how, rfl⟩
        rw [hpend] at this
        exact absurd this (List.not_mem_nil _)
      · obtain ⟨ds, hds, hm⟩ := hmem i j m h
        have : m.Path ∈ pendingPaths dss :=
          (mem_pendingPaths dss m.Path).mpr ⟨ds, hds, m, hm, how, rfl⟩
        rw [hpend] at this
        exact absurd this (List.not_mem_nil _)
      · rw [hres]; exact h
    · intro i j i' j' m m' h h' how how' hp hl
      obtain ⟨ds, hds, hm⟩ := hmem i j m h
      have : m.Path ∈ pendingPaths dss :=
        (mem_pendingPaths dss m.Path).mpr ⟨ds, hds, m, hm, how, rfl⟩
      rw [hpend] at this
      exact absurd this (List.not_mem_nil _)
  · have hres1 : (resolveAcrossM dss lookup).1 =
        dss.map (fun ds => ds.map (applyLookup lookup)) := by
      unfold resolveAcrossM; rw [if_neg hnil]
    have hres3 : (resolveAcrossM dss lookup).2.2 = dedupFirst (pendingPaths dss) := by
      unfold resolveAcrossM; rw [if_neg hnil]
    refine ⟨?_, ?_, ?_, ?_, ?_⟩
    · rw [hres3]; exact dedupFirst_nodup _
    · intro p
      rw [hres3, mem_dedupFirst, mem_pendingPaths]
    · intro i j m h
      have hu := hupd i j m h
      rw [hres1]
      refine ⟨?_, ?_, ?_⟩
      · intro how hl
        rw [hu]
        unfold applyLookup
        rw [if_pos ⟨how, hl⟩]
      · intro how hl
        rw [hu]
        unfold applyLookup
        rw [if_neg (by rintro ⟨_, h2⟩; exact h2 hl)]
      · intro how
        rw [hu]
        unfold applyLookup
        rw [if_neg (by rintro ⟨h1, _⟩; exact how h1)]
    · intro i j i' j' m m' h h' how how' hp hl
      refine ⟨applyLookup lookup m, applyLookup lookup m', ?_, ?_, ?_, ?_⟩
      · rw [hres1]; exact hupd i j m h
      · rw [hres1]; exact hupd i' j' m' h'
      · unfold applyLookup
        rw [if_pos ⟨how, hl⟩, if_pos ⟨how', by rw [← hp]; exact hl⟩]
        simp only [hp]
      · unfold applyLookup
        rw [if_pos ⟨how, hl⟩, if_pos ⟨how', by rw [← hp]; exact hl⟩]
        simp only [hp]
    · intro hall
      exfalso
      rcases hne : pendingPaths dss with _ | ⟨p, ps⟩
      · exact hnil ((dedupFirst_eq_nil _).mpr hne)
      · have : p ∈ pendingPaths dss := by rw [hne]; exact List.mem_cons_self _ _
        obtain ⟨ds, hds, m, hm, how, _⟩ := (mem_pendingPaths dss p).mp this
        exact hall ds hds m hm how

/-- C9, witness: two datasets sharing the pending path `"v.ex/a"` (plus
an already-resolved module): one lookup for that key, both locations
updated to the same identity, and the no-op clause on owner-complete
datasets. -/
theorem c9_witness :
    ((resolveAcrossM
        [[{ Path := "v.ex/a", Version := "v1", Direct := true, Owner := "", Repo := "", Deprecated := "" },
          { Path := "github.com/x/y", Version := "v1", Direct := true, Owner := "x", Repo := "y", Deprecated := "" }],
         [{ Path := "v.ex/a", Version := "v2", Direct := false, Owner := "", Repo := "", Deprecated := "" }]]
        (fun p => if p = "v.ex/a" then ("o", "r") else ("", ""))).2.2).Nodup ∧
    resolveAcrossM
        [[{ Path := "github.com/x/y", Version := "v1", Direct := true, Owner := "x", Repo := "y", Deprecated := "" }]]
        (fun _ => ("", "")) =
      ([[{ Path := "github.com/x/y", Version := "v1", Direct := true, Owner := "x", Repo := "y", Deprecated := "" }]],
        0, []) :=
  ⟨(c9_resolveAcross _ _).1,
    (c9_resolveAcross _ _).2.2.2.2 (by decide)⟩

/-! ## Transitive closure analyzer: claim C1 (termination of the DFS)

The Go `findArchivedTransitive` terminates because a node, once in the
shared `visited` map, is never re-expanded.  In the fuelled embedding
this is the statement that `graphFuel g` fuel always suffices: the run
returns `some` and is unchanged by any extra fuel. -/

/-- Filter-length monotonicity for implying predicates. -/
theorem filter_length_mono {α : Type} (l : List α) (p q : α → Bool)
    (himp : ∀ x, q x = true → p x = true) :
    (l.filter q).length ≤ (l.filter p).length := by
  induction l with
  | nil => exact Nat.le_refl 0
  | cons x xs ih =>
    simp only [List.filter_cons]
    rcases hq : q x with _ | _
    · rcases hp : p x with _ | _
      · simpa using ih
      · simp only [if_pos rfl, List.length_cons]
        exact Nat.le_succ_of_le ih
    · rw [himp x hq]
      simp only [if_pos rfl, List.length_cons]
      exact Nat.succ_le_succ ih

/-- Strict filter-length decrease at a distinguishing element. -/
theorem filter_length_lt {α : Type} (l : List α) (p q : α → Bool)
    (himp : ∀ x, q x = true → p x = true)
    (a : α) (ha : a ∈ l) (hpa : p a = true) (hqa : q a = false) :
    (l.filter q).length < (l.filter p).length := by
  induction l with
  | nil => cases ha
  | cons x xs ih =>
    simp only [List.filter_cons]
    rcases List.mem_cons.mp ha with rfl | ha'
    · rw [hpa, hqa]
      simp only [if_pos rfl, Bool.false_eq_true, if_false, List.length_cons]
      exact Nat.lt_succ_of_le (filter_length_mono xs p q himp)
    · rcases hq : q x with _ | _
      · rcases hp : p x with _ | _
        · simpa using ih ha'
        · simp only [Bool.false_eq_true, if_false, if_pos rfl, List.length_cons]
          exact Nat.lt_succ_of_le (Nat.le_of_lt (ih ha'))
      · rw [himp x hq]
        simp only [if_pos rfl, List.length_cons]
        exact Nat.succ_lt_succ (ih ha')

/-- Every child entry of the graph is in the node universe. -/
theorem childrenOf_subset (g : Graph) (n : String) :
    ∀ c ∈ childrenOf g n, c ∈ nodeUniverse g := by
  intro c hc
  unfold childrenOf at hc
  rcases hf : g.find? (fun kv => kv.1 = n) with _ | kv
  · rw [hf] at hc; cases hc
  · rw [hf] at hc
    have hkv : kv ∈ g := List.mem_of_find?_eq_some hf
    unfold nodeUniverse
    refine List.mem_append_right _ ?_
    rw [List.mem_flatten]
    exact ⟨kv.2, List.mem_map.mpr ⟨kv, hkv, rfl⟩, hc⟩

/-- A node with a non-empty child list is a key, hence in the universe. -/
theorem mem_nodeUniverse_of_children_ne_nil (g : Graph) (n : String)
    (h : childrenOf g n ≠ []) : n ∈ nodeUniverse g := by
  unfold childrenOf at h
  rcases hf : g.find? (fun kv => kv.1 = n) with _ | kv
  · rw [hf] at h; exact absurd rfl h
  · have hkv : kv ∈ g := List.mem_of_find?_eq_some hf
    have hpred := List.find?_some hf
    simp only [decide_eq_true_eq] at hpred
    unfold nodeUniverse
    exact List.mem_append_left _ (List.mem_map.mpr ⟨kv, hkv, hpred⟩)

/-- Every entry's child list is bounded by `maxKids`. -/
theorem maxKids_bound (g : Graph) (kv : String × List String) (hkv : kv ∈ g) :
    kv.2.length ≤ maxKids g := by
  induction g with
  | nil => cases hkv
  | cons kv0 g ih =>
    rw [show maxKids (kv0 :: g) = max kv0.2.length (maxKids g) from rfl]
    rcases List.mem_cons.mp hkv with rfl | hkv'
    · exact Nat.le_max_left _ _
    · exact Nat.le_trans (ih hkv') (Nat.le_max_right _ _)

/-- No child list is longer than `maxKids`. -/
theorem childrenOf_length_le (g : Graph) (n : String) :
    (childrenOf g n).length ≤ maxKids g := by
  rcases hf : g.find? (fun kv => kv.1 = n) with _ | kv
  · unfold childrenOf
    rw [hf]
    exact Nat.zero_le _
  · unfold childrenOf
    rw [hf]
    show kv.2.length ≤ maxKids g
    exact maxKids_bound g kv (List.mem_of_find?_eq_some hf)

/-- Marking a fresh universe node visited strictly shrinks the
unvisited count. -/
theorem unvisited_lt (g : Graph) (n : String) (v : List String)
    (hn : n ∈ nodeUniverse g) (hv : ¬ n ∈ v) :
    unvisited g (n :: v) < unvisited g v := by
  unfold unvisited
  refine filter_length_lt (nodeUniverse g) _ _ ?_ n hn (by simpa using hv) (by simp)
  intro x hx
  simp only [decide_eq_true_eq] at hx ⊢
  intro hc
  exact hx (List.mem_cons_of_mem _ hc)

/-- Growing the visited set never grows the unvisited count. -/
theorem unvisited_anti (g : Graph) (v v1 : List String)
    (hsub : ∀ x ∈ v, x ∈ v1) : unvisited g v1 ≤ unvisited g v := by
  unfold unvisited
  refine filter_length_mono (nodeUniverse g) _ _ ?_
  intro x hx
  simp only [decide_eq_true_eq] at hx ⊢
  intro hc
  exact hx (hsub x hc)

/-- The unvisited count is bounded by the universe size. -/
theorem unvisited_le (g : Graph) (v : List String) :
    unvisited g v ≤ (nodeUniverse g).length :=
  List.length_filter_le _ _

/-- The traversal only ever adds entries to the shared `visited` map. -/
theorem fatF_visited_mono : ∀ (fuel : Nat) (g : Graph) (ap : String → Bool)
    (t : Task) (v : List String) (out : List String × List String),
    fatF fuel g ap t v = some out → ∀ x ∈ v, x ∈ out.2 := by
  intro fuel
  induction fuel with
  | zero => intro g ap t v out h; cases h
  | succ fuel ih =>
    intro g ap t v out h x hx
    rcases t with n | cs
    · simp only [fatF] at h
      by_cases hv : n ∈ v
      · rw [if_pos hv] at h
        cases h
        exact hx
      · rw [if_neg hv] at h
        exact ih g ap _ _ out h x (List.mem_cons_of_mem _ hx)
    · rcases cs with _ | ⟨c, cs'⟩
      · simp only [fatF] at h
        cases h
        exact hx
      · simp only [fatF] at h
        rcases hf : fatF fuel g ap (Task.node c) v with _ | ⟨r1, v1⟩
        · simp only [hf] at h
          exact Option.noConfusion h
        · simp only [hf] at h
          rcases hg2 : fatF fuel g ap (Task.kids cs') v1 with _ | ⟨r2, v2⟩
          · simp only [hg2] at h
            exact Option.noConfusion h
          · simp only [hg2] at h
            cases h
            exact ih g ap _ _ (r2, v2) hg2 x (ih g ap _ _ (r1, v1) hf x hx)

/-- Extra fuel never changes a successful traversal. -/
theorem fatF_fuel_mono : ∀ (fuel fuel' : Nat), fuel ≤ fuel' →
    ∀ (g : Graph) (ap : String → Bool) (t : Task) (v : List String)
      (out : List String × List String),
    fatF fuel g ap t v = some out → fatF fuel' g ap t v = some out := by
  intro fuel
  induction fuel with
  | zero => intro fuel' _ g ap t v out h; cases h
  | succ fuel ih =>
    intro fuel' hle g ap t v out h
    rcases fuel' with _ | fuel'
    · omega
    rcases t with n | cs
    · simp only [fatF] at h ⊢
      by_cases hv : n ∈ v
      · rw [if_pos hv] at h ⊢; exact h
      · rw [if_neg hv] at h ⊢
        exact ih fuel' (by omega) g ap _ _ out h
    · rcases cs with _ | ⟨c, cs'⟩
      · simp only [fatF] at h ⊢; exact h
      · simp only [fatF] at h ⊢
        rcases hf : fatF fuel g ap (Task.node c) v with _ | ⟨r1, v1⟩
        · simp only [hf] at h
          exact Option.noConfusion h
        · simp only [hf] at h
          rcases hg2 : fatF fuel g ap (Task.kids cs') v1 with _ | ⟨r2, v2⟩
          · simp only [hg2] at h
            exact Option.noConfusion h
          · simp only [hg2] at h
            simp only [ih fuel' (by omega) g ap _ _ (r1, v1) hf,
              ih fuel' (by omega) g ap _ _ (r2, v2) hg2]
            exact h

/-- Progress: with fuel linear in the unvisited count, the traversal
completes — the formal content of "a visited node is never re-expanded,
so the recursion depth is bounded". -/
theorem fatF_progress (g : Graph) (ap : String → Bool) : ∀ fuel : Nat,
    (∀ (n : String) (v : List String), n ∈ nodeUniverse g →
      (maxKids g + 2) * unvisited g v + 2 ≤ fuel →
      (fatF fuel g ap (Task.node n) v).isSome) ∧
    (∀ (cs : List String) (v : List String), (∀ c ∈ cs, c ∈ nodeUniverse g) →
      (maxKids g + 2) * unvisited g v + cs.length + 2 ≤ fuel →
      (fatF fuel g ap (Task.kids cs) v).isSome) := by
  intro fuel
  induction fuel with
  | zero =>
    exact ⟨fun n v _ h => absurd h (by omega), fun cs v _ h => absurd h (by omega)⟩
  | succ fuel ih =>
    constructor
    · intro n v hn hfuel
      simp only [fatF]
      by_cases hv : n ∈ v
      · rw [if_pos hv]; exact rfl
      · rw [if_neg hv]
        apply ih.2 (childrenOf g n) (n :: v) (childrenOf_subset g n)
        have h1 : unvisited g (n :: v) + 1 ≤ unvisited g v := unvisited_lt g n v hn hv
        have h2 : (childrenOf g n).length ≤ maxKids g := childrenOf_length_le g n
        have h3 : (maxKids g + 2) * unvisited g (n :: v) + (maxKids g + 2) ≤
            (maxKids g + 2) * unvisited g v := by
          calc (maxKids g + 2) * unvisited g (n :: v) + (maxKids g + 2)
              = (maxKids g + 2) * (unvisited g (n :: v) + 1) := by ring
            _ ≤ (maxKids g + 2) * unvisited g v := Nat.mul_le_mul_left _ h1
        omega
    · intro cs v hcs hfuel
      rcases cs with _ | ⟨c, cs'⟩
      · simp only [fatF]; exact rfl
      · simp only [fatF]
        have hA : (fatF fuel g ap (Task.node c) v).isSome := by
          apply ih.1 c v (hcs c (List.mem_cons_self _ _))
          simp only [List.length_cons] at hfuel
          omega
        obtain ⟨⟨r1, v1⟩, hf⟩ := Option.isSome_iff_exists.mp hA
        simp only [hf]
        have hm1 : unvisited g v1 ≤ unvisited g v :=
          unvisited_anti g v v1 (fatF_visited_mono fuel g ap _ v (r1, v1) hf)
        have hB : (fatF fuel g ap (Task.kids cs') v1).isSome := by
          apply ih.2 cs' v1 (fun x hx => hcs x (List.mem_cons_of_mem _ hx))
          have h3 : (maxKids g + 2) * unvisited g v1 ≤ (maxKids g + 2) * unvisited g v :=
            Nat.mul_le_mul_left _ hm1
          simp only [List.length_cons] at hfuel
          omega
        obtain ⟨⟨r2, v2⟩, hg2⟩ := Option.isSome_iff_exists.mp hB
        simp only [hg2]
        exact rfl

/-- `graphFuel` is always enough fuel, for any start node and any
initial visited map. -/
theorem fatF_graphFuel_isSome (g : Graph) (ap : String → Bool)
    (node : String) (v : List String) :
    (fatF (graphFuel g) g ap (Task.node node) v).isSome := by
  have hfuel : graphFuel g = (maxKids g + 2) * (nodeUniverse g).length + 2 := rfl
  rcases hgf : graphFuel g with _ | fuel
  · rw [hfuel] at hgf; omega
  simp only [fatF]
  by_cases hv : node ∈ v
  · rw [if_pos hv]; exact rfl
  · rw [if_neg hv]
    by_cases hn : node ∈ nodeUniverse g
    · apply (fatF_progress g ap fuel).2 (childrenOf g node) (node :: v) (childrenOf_subset g node)
      have h1 : unvisited g (node :: v) + 1 ≤ unvisited g v := unvisited_lt g node v hn hv
      have h2 : (childrenOf g node).length ≤ maxKids g := childrenOf_length_le g node
      have h3 : (maxKids g + 2) * unvisited g (node :: v) + (maxKids g + 2) ≤
          (maxKids g + 2) * unvisited g v := by
        calc (maxKids g + 2) * unvisited g (node :: v) + (maxKids g + 2)
            = (maxKids g + 2) * (unvisited g (node :: v) + 1) := by ring
          _ ≤ (maxKids g + 2) * unvisited g v := Nat.mul_le_mul_left _ h1
      have h4 : (maxKids g + 2) * unvisited g v ≤
          (maxKids g + 2) * (nodeUniverse g).length :=
        Nat.mul_le_mul_left _ (unvisited_le g v)
      rw [hfuel] at hgf
      omega
    · have hch : childrenOf g node = [] := by
        by_contra hc
        exact hn (mem_nodeUniverse_of_children_ne_nil g node hc)
      rw [hch]
      rcases fuel with _ | fuel'
      · rw [hfuel] at hgf; omega
      · simp only [fatF]; exact rfl

/-- C1: the depth-first traversal `findArchivedTransitive` terminates on
every graph, including graphs with self-loops and cycles, because a node
already in the visited set is never re-expanded: `graphFuel g` fuel
always yields a result, and any additional fuel leaves it unchanged.  On
the cycle `a@v1 → b@v1 → a@v1` with `b`'s path archived, the traversal
from `a@v1` terminates with `b` exactly once in the accumulated set. -/
theorem c1_findArchivedTransitive :
    (∀ (g : Graph) (ap : String → Bool) (node : String) (visited : List String),
      (fatF (graphFuel g) g ap (Task.node node) visited).isSome ∧
      (∀ fuel, graphFuel g ≤ fuel →
        fatF fuel g ap (Task.node node) visited =
          fatF (graphFuel g) g ap (Task.node node) visited)) ∧
    (findArchivedTransitive [("a@v1", ["b@v1"]), ("b@v1", ["a@v1"])]
        (fun s => s == "b") "a@v1" []).count "b" = 1 := by
  constructor
  · intro g ap node visited
    refine ⟨fatF_graphFuel_isSome g ap node visited, ?_⟩
    intro fuel hle
    obtain ⟨out, hout⟩ :=
      Option.isSome_iff_exists.mp (fatF_graphFuel_isSome g ap node visited)
    rw [hout, fatF_fuel_mono (graphFuel g) fuel hle g ap _ _ out hout]
  · decide

/-- C1, witness: the general stabilization statement applied to the
cycle graph itself at exactly its fuel bound. -/
theorem c1_witness :
    (fatF (graphFuel [("a@v1", ["b@v1"]), ("b@v1", ["a@v1"])])
        [("a@v1", ["b@v1"]), ("b@v1", ["a@v1"])] (fun s => s == "b")
        (Task.node "a@v1") []).isSome ∧
      fatF (graphFuel [("a@v1", ["b@v1"]), ("b@v1", ["a@v1"])] + 5)
          [("a@v1", ["b@v1"]), ("b@v1", ["a@v1"])] (fun s => s == "b")
          (Task.node "a@v1") [] =
        fatF (graphFuel [("a@v1", ["b@v1"]), ("b@v1", ["a@v1"])])
          [("a@v1", ["b@v1"]), ("b@v1", ["a@v1"])] (fun s => s == "b")
          (Task.node "a@v1") [] :=
  ⟨(c1_findArchivedTransitive.1 [("a@v1", ["b@v1"]), ("b@v1", ["a@v1"])]
      (fun s => s == "b") "a@v1" []).1,
    (c1_findArchivedTransitive.1 [("a@v1", ["b@v1"]), ("b@v1", ["a@v1"])]
      (fun s => s == "b") "a@v1" []).2 _ (by omega)⟩

/-! ## Transitive closure analyzer: claims C4 and C8 -/

/-- Membership through one insertion step of the sort. -/
theorem mem_insertEntry (e x : TreeEntry) :
    ∀ l : List TreeEntry, x ∈ insertEntry e l ↔ x = e ∨ x ∈ l := by
  intro l
  induction l with
  | nil => simp [insertEntry]
  | cons f fs ih =>
    simp only [insertEntry]
    by_cases hle : strLe e.directPath.toList f.directPath.toList = true
    · rw [if_pos hle]
      simp [List.mem_cons]
    · rw [if_neg hle]
      simp only [List.mem_cons, ih]
      tauto

/-- Membership is preserved by the sort. -/
theorem mem_sortEntries (x : TreeEntry) :
    ∀ l : List TreeEntry, x ∈ sortEntries l ↔ x ∈ l := by
  intro l
  induction l with
  | nil => simp [sortEntries]
  | cons e l ih =>
    show x ∈ insertEntry e (sortEntries l) ↔ _
    rw [mem_insertEntry, ih]
    simp [List.mem_cons]

/-- `strLe` is total. -/
theorem strLe_total : ∀ a b : List Char, strLe a b = true ∨ strLe b a = true := by
  intro a
  induction a with
  | nil => intro b; left; rfl
  | cons x xs ih =>
    intro b
    rcases b with _ | ⟨y, ys⟩
    · right; rfl
    · simp only [strLe]
      by_cases hxy : x.toNat = y.toNat
      · rw [if_pos hxy, if_pos hxy.symm]
        exact ih ys
      · rw [if_neg hxy, if_neg (fun h => hxy h.symm)]
        rcases Nat.lt_or_ge x.toNat y.toNat with h | h
        · left; exact decide_eq_true h
        · right; exact decide_eq_true (by omega)

/-- `strLe` is transitive. -/
theorem strLe_trans : ∀ a b c : List Char,
    strLe a b = true → strLe b c = true → strLe a c = true := by
  intro a
  induction a with
  | nil => intro b c _ _; rfl
  | cons x xs ih =>
    intro b c hab hbc
    rcases b with _ | ⟨y, ys⟩
    · cases hab
    rcases c with _ | ⟨z, zs⟩
    · cases hbc
    simp only [strLe] at hab hbc ⊢
    by_cases hxy : x.toNat = y.toNat
    · rw [if_pos hxy] at hab
      by_cases hyz : y.toNat = z.toNat
      · rw [if_pos hyz] at hbc
        rw [if_pos (hxy.trans hyz)]
        exact ih ys zs hab hbc
      · rw [if_neg hyz] at hbc
        rw [if_neg (by rw [hxy]; exact hyz)]
        rw [hxy]
        exact hbc
    · rw [if_neg hxy] at hab
      have hxy' : x.toNat < y.toNat := of_decide_eq_true hab
      by_cases hyz : y.toNat = z.toNat
      · rw [if_pos hyz] at hbc
        rw [if_neg (by rw [← hyz]; exact hxy)]
        exact decide_eq_true (by omega)
      · rw [if_neg hyz] at hbc
        have hyz' : y.toNat < z.toNat := of_decide_eq_true hbc
        rw [if_neg (by omega)]
        exact decide_eq_true (by omega)

/-- Inserting into a sorted entry list keeps it sorted. -/
theorem pairwise_insertEntry (e : TreeEntry) :
    ∀ l : List TreeEntry,
      List.Pairwise (fun a b : TreeEntry => strLe a.directPath.toList b.directPath.toList = true) l →
      List.Pairwise (fun a b : TreeEntry => strLe a.directPath.toList b.directPath.toList = true)
        (insertEntry e l) := by
  intro l
  induction l with
  | nil => intro _; simp [insertEntry]
  | cons f fs ih =>
    intro h
    obtain ⟨hf, hfs⟩ := List.pairwise_cons.mp h
    simp only [insertEntry]
    by_cases hle : strLe e.directPath.toList f.directPath.toList = true
    · rw [if_pos hle]
      refine List.pairwise_cons.mpr ⟨?_, h⟩
      intro a ha
      rcases List.mem_cons.mp ha with rfl | ha'
      · exact hle
      · exact strLe_trans _ _ _ hle (hf a ha')
    · rw [if_neg hle]
      refine List.pairwise_cons.mpr ⟨?_, ih hfs⟩
      intro a ha
      rcases (mem_insertEntry e a fs).mp ha with rfl | ha'
      · rcases (strLe_total a.directPath.toList f.directPath.toList) with h' | h'
        · exact absurd h' hle
        · exact h'
      · exact hf a ha'

/-- The sort at the end of `buildTree` sorts by direct path. -/
theorem pairwise_sortEntries (l : List TreeEntry) :
    List.Pairwise (fun a b : TreeEntry => strLe a.directPath.toList b.directPath.toList = true)
      (sortEntries l) := by
  induction l with
  | nil => exact List.Pairwise.nil
  | cons e l ih => exact pairwise_insertEntry e (sortEntries l) ih

/-- Everything the traversal accumulates is an archived path. -/
theorem fatF_result_archived : ∀ (fuel : Nat) (g : Graph) (ap : String → Bool)
    (t : Task) (v : List String) (out : List String × List String),
    fatF fuel g ap t v = some out → ∀ x ∈ out.1, ap x = true := by
  intro fuel
  induction fuel with
  | zero => intro g ap t v out h; cases h
  | succ fuel ih =>
    intro g ap t v out h x hx
    rcases t with n | cs
    · simp only [fatF] at h
      by_cases hv : n ∈ v
      · rw [if_pos hv] at h
        cases h
        cases hx
      · rw [if_neg hv] at h
        exact ih g ap _ _ out h x hx
    · rcases cs with _ | ⟨c, cs'⟩
      · simp only [fatF] at h
        cases h
        cases hx
      · simp only [fatF] at h
        rcases hf : fatF fuel g ap (Task.node c) v with _ | ⟨r1, v1⟩
        · simp only [hf] at h
          exact Option.noConfusion h
        · simp only [hf] at h
          rcases hg2 : fatF fuel g ap (Task.kids cs') v1 with _ | ⟨r2, v2⟩
          · simp only [hg2] at h
            exact Option.noConfusion h
          · simp only [hg2] at h
            cases h
            rcases List.mem_append.mp hx with hx1 | hx2
            · rcases List.mem_append.mp hx1 with hx0 | hxr1
              · by_cases hap : ap (stripVersion c) = true
                · rw [if_pos hap] at hx0
                  have hxc := List.mem_singleton.mp hx0
                  rw [hxc]
                  exact hap
                · rw [if_neg hap] at hx0
                  cases hx0
              · exact ih g ap _ _ (r1, v1) hf x hxr1
            · exact ih g ap _ _ (r2, v2) hg2 x hx2

/-- Every accumulated path of `findArchivedTransitive` is archived. -/
theorem findArchivedTransitive_archived (g : Graph) (ap : String → Bool)
    (node : String) (v : List String) :
    ∀ x ∈ findArchivedTransitive g ap node v, ap x = true := by
  intro x hx
  unfold findArchivedTransitive at hx
  rcases h : fatF (graphFuel g) g ap (Task.node node) v with _ | out
  · rw [h] at hx; cases hx
  · rw [h] at hx
    exact fatF_result_archived (graphFuel g) g ap _ v out h x hx

/-- `buildTree` in the root-found, some-archived case: one optional
entry per child of the root, sorted. -/
theorem buildTreeEntries_eq (results : List RepoStatus) (g : Graph)
    (allModules : List Module)
    (harch : results.any (fun r => r.IsArchived) = true)
    (hroot : rootKeyOf g ≠ "") :
    buildTreeEntries results g allModules =
      sortEntries ((childrenOf g (rootKeyOf g)).filterMap
        (entryOfChild g (isArchivedPath results allModules))) := by
  unfold buildTreeEntries
  rw [if_neg ?hall, if_neg hroot]
  case hall =>
    intro hall
    rw [List.all_eq_true] at hall
    obtain ⟨r, hr, hrar⟩ := List.any_eq_true.mp harch
    have := hall r hr
    simp only [decide_eq_true_eq] at this hrar
    exact this hrar

/-- C4, counterexample: the claim as stated is false — the accumulated
set attached to a `buildTree` entry is not deduplicated.  With root
`root → a@v1`, `a@v1 → b@v1, c@v1`, `c@v1 → b@v1` and `b` archived, the
entry for `a` carries `["b", "b"]` (the archived module is reachable as
a child of two distinct nodes); deduplication happens only in the
renderers. -/
theorem c4_counterexample :
    buildTreeEntries
        [{ Module := { Path := "b", Version := "v1", Direct := false, Owner := "o", Repo := "b", Deprecated := "" },
           IsArchived := true, ArchivedAt := 0, PushedAt := 0, NotFound := false, Error := "" }]
        [("root", ["a@v1"]), ("a@v1", ["b@v1", "c@v1"]), ("c@v1", ["b@v1"])]
        [{ Path := "b", Version := "v1", Direct := false, Owner := "o", Repo := "b", Deprecated := "" }]
      = [⟨"a", ["b", "b"]⟩] ∧ ¬ (["b", "b"] : List String).Nodup := by
  constructor
  · decide
  · decide

/-- C4, amended: in the root-found case of `buildTree`, a direct
dependency (child of the root) yields its entry iff its stripped path is
archived or its accumulated archived-transitive list is non-empty; the
attached list excludes the direct dependency's own path and the entries
are sorted by direct path ascending — but the attached list itself may
contain duplicates; first-wins deduplication (no duplicates, a sublist
preserving first-discovery order, same membership) is applied per entry
by the renderers (`PrintTree` and `buildTreeJSONOutput`). -/
theorem c4_buildTree (results : List RepoStatus) (g : Graph) (allModules : List Module)
    (harch : results.any (fun r => r.IsArchived) = true)
    (hroot : rootKeyOf g ≠ "") :
    (∀ c ∈ childrenOf g (rootKeyOf g),
      ((⟨stripVersion c,
          (findArchivedTransitive g (isArchivedPath results allModules) c []).filter
            (fun a => a ≠ stripVersion c)⟩ : TreeEntry) ∈
          buildTreeEntries results g allModules ↔
        (isArchivedPath results allModules (stripVersion c) = true ∨
          findArchivedTransitive g (isArchivedPath results allModules) c [] ≠ []))) ∧
    (∀ e ∈ buildTreeEntries results g allModules, ¬ e.directPath ∈ e.archived) ∧
    List.Pairwise (fun a b : TreeEntry => strLe a.directPath.toList b.directPath.toList = true)
      (buildTreeEntries results g allModules) ∧
    (∀ e ∈ buildTreeEntries results g allModules,
      (dedupFirst e.archived).Nodup ∧
      List.Sublist (dedupFirst e.archived) e.archived ∧
      (∀ x, x ∈ dedupFirst e.archived ↔ x ∈ e.archived)) := by
  rw [buildTreeEntries_eq results g allModules harch hroot]
  refine ⟨?_, ?_, pairwise_sortEntries _, ?_⟩
  · intro c hc
    constructor
    · intro hmem
      by_contra hcond
      push_neg at hcond
      obtain ⟨hap, htrans⟩ := hcond
      have hap' : isArchivedPath results allModules (stripVersion c) = false := by
        rcases h : isArchivedPath results allModules (stripVersion c) with _ | _
        · rfl
        · exact absurd h hap
      rw [htrans] at hmem
      simp only [List.filter_nil] at hmem
      obtain ⟨c', hc', hsome⟩ :=
        List.mem_filterMap.mp ((mem_sortEntries _ _).mp hmem)
      unfold entryOfChild at hsome
      by_cases hcond' : isArchivedPath results allModules (stripVersion c') = true ∨
          findArchivedTransitive g (isArchivedPath results allModules) c' [] ≠ []
      · rw [if_pos hcond'] at hsome
        have heq := Option.some.inj hsome
        have hpath : stripVersion c' = stripVersion c := congrArg TreeEntry.directPath heq
        have harchlist :
            (findArchivedTransitive g (isArchivedPath results allModules) c' []).filter
              (fun a => a ≠ stripVersion c') = [] := congrArg TreeEntry.archived heq
        rcases hcond' with hself | hne
        · rw [hpath] at hself
          rw [hself] at hap'
          cases hap'
        · rcases htr : findArchivedTransitive g (isArchivedPath results allModules) c' []
              with _ | ⟨x, xs⟩
          · exact hne htr
          · have hxmem : x ∈ findArchivedTransitive g (isArchivedPath results allModules) c' [] := by
              rw [htr]; exact List.mem_cons_self _ _
            have hxarch := findArchivedTransitive_archived g _ c' [] x hxmem
            have hxeq : x = stripVersion c' := by
              by_contra hxne
              have : x ∈ (findArchivedTransitive g (isArchivedPath results allModules) c' []).filter
                  (fun a => a ≠ stripVersion c') :=
                List.mem_filter.mpr ⟨hxmem, by simpa using hxne⟩
              rw [harchlist] at this
              cases this
            rw [hxeq, hpath, hap'] at hxarch
            cases hxarch
      · rw [if_neg hcond'] at hsome
        cases hsome
    · intro hcond
      refine (mem_sortEntries _ _).mpr (List.mem_filterMap.mpr ⟨c, hc, ?_⟩)
      unfold entryOfChild
      rw [if_pos hcond]
  · intro e hmem
    obtain ⟨c', hc', hsome⟩ :=
      List.mem_filterMap.mp ((mem_sortEntries _ _).mp hmem)
    unfold entryOfChild at hsome
    by_cases hcond' : isArchivedPath results allModules (stripVersion c') = true ∨
        findArchivedTransitive g (isArchivedPath results allModules) c' [] ≠ []
    · rw [if_pos hcond'] at hsome
      cases Option.some.inj hsome
      intro hmem'
      have := (List.mem_filter.mp hmem').2
      simp at this
    · rw [if_neg hcond'] at hsome
      cases hsome
  · intro e _
    exact ⟨dedupFirst_nodup _, dedupFirstAux_sublist _ [],
      fun x => by
        rw [mem_dedupFirst]⟩

/-- C4, witness: the amended theorem on the duplicate-producing graph:
the entry for `a` is present (its traversal is non-empty), excludes
`a`'s own path, and its render-deduplicated list is `["b"]`-like
(duplicate-free, order-preserving, same membership). -/
theorem c4_witness :
    ((⟨stripVersion "a@v1",
        (findArchivedTransitive
            [("root", ["a@v1"]), ("a@v1", ["b@v1", "c@v1"]), ("c@v1", ["b@v1"])]
            (isArchivedPath
              [{ Module := { Path := "b", Version := "v1", Direct := false, Owner := "o", Repo := "b", Deprecated := "" },
                 IsArchived := true, ArchivedAt := 0, PushedAt := 0, NotFound := false, Error := "" }]
              [{ Path := "b", Version := "v1", Direct := false, Owner := "o", Repo := "b", Deprecated := "" }])
            "a@v1" []).filter (fun a => a ≠ stripVersion "a@v1")⟩ : TreeEntry) ∈
      buildTreeEntries
        [{ Module := { Path := "b", Version := "v1", Direct := false, Owner := "o", Repo := "b", Deprecated := "" },
           IsArchived := true, ArchivedAt := 0, PushedAt := 0, NotFound := false, Error := "" }]
        [("root", ["a@v1"]), ("a@v1", ["b@v1", "c@v1"]), ("c@v1", ["b@v1"])]
        [{ Path := "b", Version := "v1", Direct := false, Owner := "o", Repo := "b", Deprecated := "" }]) ∧
    (dedupFirst ["b", "b"]).Nodup := by
  constructor
  · exact ((c4_buildTree _ _ _ (by decide) (by decide)).1 "a@v1" (by decide)).mpr
      (by right; decide)
  · exact ((c4_buildTree
      [{ Module := { Path := "b", Version := "v1", Direct := false, Owner := "o", Repo := "b", Deprecated := "" },
         IsArchived := true, ArchivedAt := 0, PushedAt := 0, NotFound := false, Error := "" }]
      [("root", ["a@v1"]), ("a@v1", ["b@v1", "c@v1"]), ("c@v1", ["b@v1"])]
      [{ Path := "b", Version := "v1", Direct := false, Owner := "o", Repo := "b", Deprecated := "" }] (by decide) (by decide)).2.2.2
      ⟨"a", ["b", "b"]⟩ (by decide)).1

/-- The argmax scan: its result is either the start accumulator or an
entry of the graph, it dominates every child-list length, and it never
decreases the accumulator. -/
theorem rootKeyScan_spec (g : Graph) : ∀ acc : Nat × String,
    (g.foldl (fun (acc : Nat × String) kv =>
        if kv.2.length > acc.1 then (kv.2.length, kv.1) else acc) acc = acc ∨
      ∃ kv ∈ g, g.foldl (fun (acc : Nat × String) kv =>
        if kv.2.length > acc.1 then (kv.2.length, kv.1) else acc) acc = (kv.2.length, kv.1)) ∧
    (∀ kv ∈ g, kv.2.length ≤ (g.foldl (fun (acc : Nat × String) kv =>
        if kv.2.length > acc.1 then (kv.2.length, kv.1) else acc) acc).1) ∧
    acc.1 ≤ (g.foldl (fun (acc : Nat × String) kv =>
        if kv.2.length > acc.1 then (kv.2.length, kv.1) else acc) acc).1 := by
  induction g with
  | nil => exact fun acc => ⟨Or.inl rfl, fun kv hkv => absurd hkv (List.not_mem_nil kv),
      Nat.le_refl _⟩
  | cons kv0 g ih =>
    intro acc
    simp only [List.foldl_cons]
    by_cases h0 : kv0.2.length > acc.1
    · rw [if_pos h0]
      refine ⟨?_, ?_, ?_⟩
      · rcases (ih (kv0.2.length, kv0.1)).1 with heq | ⟨kv, hkv, heq⟩
        · exact Or.inr ⟨kv0, List.mem_cons_self _ _, heq⟩
        · exact Or.inr ⟨kv, List.mem_cons_of_mem _ hkv, heq⟩
      · intro kv hkv
        rcases List.mem_cons.mp hkv with rfl | hkv'
        · exact (ih (kv.2.length, kv.1)).2.2
        · exact (ih (kv0.2.length, kv0.1)).2.1 kv hkv'
      · exact Nat.le_trans (Nat.le_of_lt h0) (ih (kv0.2.length, kv0.1)).2.2
    · rw [if_neg h0]
      refine ⟨?_, ?_, ?_⟩
      · rcases (ih acc).1 with heq | ⟨kv, hkv, heq⟩
        · exact Or.inl heq
        · exact Or.inr ⟨kv, List.mem_cons_of_mem _ hkv, heq⟩
      · intro kv hkv
        rcases List.mem_cons.mp hkv with rfl | hkv'
        · exact Nat.le_trans (Nat.le_of_not_lt h0) (ih acc).2.2
        · exact (ih acc).2.1 kv hkv'
      · exact (ih acc).2.2

/-- C8, counterexample: the claim as stated is false.  On the graph with
the single key `a@v1` and no children, no key is `@`-free and the graph
is non-empty, yet no key — in particular not "the key with the most
children" — is chosen as root: the strict-greater scan never leaves the
`""` sentinel when every key has zero children, and `buildTree` degrades
to the fallback. -/
theorem c8_counterexample :
    (([("a@v1", [])] : Graph).find? (fun kv => ¬ '@' ∈ kv.1.toList) = none) ∧
    ([("a@v1", [])] : Graph) ≠ [] ∧
    ¬ ∃ kv ∈ ([("a@v1", [])] : Graph), rootKeyOf [("a@v1", [])] = kv.1 := by
  refine ⟨by decide, by decide, ?_⟩
  decide

/-- C8, amended: the root is the first `@`-free key of the graph when
one exists (and is non-empty — Go's `""` sentinel); when no such key
exists but some key has at least one child, a key with the most
children is chosen as root; and on the entirely empty graph `buildTree`
returns one entry per archived status with an empty transitive set
instead of failing. -/
theorem c8_rootAndFallback :
    (∀ (g : Graph) (kv : String × List String),
      g.find? (fun kv => ¬ '@' ∈ kv.1.toList) = some kv → kv.1 ≠ "" →
      rootKeyOf g = kv.1 ∧ kv ∈ g ∧ ¬ '@' ∈ kv.1.toList) ∧
    (∀ g : Graph, g.find? (fun kv => ¬ '@' ∈ kv.1.toList) = none →
      (∃ kv0 ∈ g, kv0.2 ≠ []) →
      ∃ kv ∈ g, rootKeyOf g = kv.1 ∧ ∀ kv' ∈ g, kv'.2.length ≤ kv.2.length) ∧
    (∀ (results : List RepoStatus) (allModules : List Module),
      buildTreeEntries results [] allModules =
        (results.filter (fun r => r.IsArchived)).map
          (fun r => ⟨r.Module.Path, []⟩)) := by
  refine ⟨?_, ?_, ?_⟩
  · intro g kv hf hne
    have hfirst : rootKeyFirst g = kv.1 := by
      unfold rootKeyFirst; rw [hf]
    refine ⟨?_, List.mem_of_find?_eq_some hf, ?_⟩
    · unfold rootKeyOf
      rw [hfirst, if_neg hne]
    · have := List.find?_some hf
      simpa using this
  · intro g hf ⟨kv0, hkv0, hne0⟩
    have hfirst : rootKeyFirst g = "" := by
      unfold rootKeyFirst; rw [hf]
    have hroot : rootKeyOf g = (rootKeyScan g).2 := by
      unfold rootKeyOf
      rw [hfirst, if_pos rfl]
    obtain ⟨horig, hdom, _⟩ := rootKeyScan_spec g (0, "")
    rcases horig with heq | ⟨kv, hkv, heq⟩
    · exfalso
      have heq' : rootKeyScan g = (0, "") := heq
      have hb := hdom kv0 hkv0
      rw [show (g.foldl (fun (acc : Nat × String) kv =>
          if kv.2.length > acc.1 then (kv.2.length, kv.1) else acc) (0, "")) =
          rootKeyScan g from rfl, heq'] at hb
      have : kv0.2.length = 0 := Nat.le_zero.mp hb
      exact hne0 (List.length_eq_zero.mp this)
    · have heq' : rootKeyScan g = (kv.2.length, kv.1) := heq
      refine ⟨kv, hkv, ?_, ?_⟩
      · rw [hroot, heq']
      · intro kv' hkv'
        have hb := hdom kv' hkv'
        rw [show (g.foldl (fun (acc : Nat × String) kv =>
            if kv.2.length > acc.1 then (kv.2.length, kv.1) else acc) (0, "")) =
            rootKeyScan g from rfl, heq'] at hb
        exact hb
  · intro results allModules
    unfold buildTreeEntries
    by_cases hall : results.all (fun r => ¬ r.IsArchived) = true
    · rw [if_pos hall]
      have hfilter : results.filter (fun r => r.IsArchived) = [] := by
        rw [List.filter_eq_nil_iff]
        intro r hr
        have := List.all_eq_true.mp hall r hr
        simpa using this
      rw [hfilter]
      rfl
    · rw [if_neg hall, if_pos (show rootKeyOf ([] : Graph) = "" from rfl)]

/-- C8, witness: the amended theorem at concrete graphs — an `@`-free
key is picked as root; with only versioned keys the one with the most
children is picked; the empty graph degrades to one fallback entry per
archived status. -/
theorem c8_witness :
    (rootKeyOf [("root", ["a@v1"]), ("a@v1", [])] = "root" ∧
      ("root", ["a@v1"]) ∈ ([("root", ["a@v1"]), ("a@v1", [])] : Graph) ∧
      ¬ '@' ∈ "root".toList) ∧
    (∃ kv ∈ ([("a@v1", ["b@v1", "c@v1"]), ("b@v1", [])] : Graph),
      rootKeyOf [("a@v1", ["b@v1", "c@v1"]), ("b@v1", [])] = kv.1 ∧
      ∀ kv' ∈ ([("a@v1", ["b@v1", "c@v1"]), ("b@v1", [])] : Graph),
        kv'.2.length ≤ kv.2.length) ∧
    buildTreeEntries
        [{ Module := { Path := "x", Version := "v1", Direct := true, Owner := "o", Repo := "x", Deprecated := "" },
           IsArchived := true, ArchivedAt := 0, PushedAt := 0, NotFound := false, Error := "" }]
        [] [] =
      [⟨"x", []⟩] :=
  ⟨c8_rootAndFallback.1 [("root", ["a@v1"]), ("a@v1", [])] ("root", ["a@v1"])
      (by decide) (by decide),
    c8_rootAndFallback.2.1 [("a@v1", ["b@v1", "c@v1"]), ("b@v1", [])] (by decide)
      ⟨("a@v1", ["b@v1", "c@v1"]), by decide, by decide⟩,
    (c8_rootAndFallback.2.2
        [{ Module := { Path := "x", Version := "v1", Direct := true, Owner := "o", Repo := "x", Deprecated := "" },
           IsArchived := true, ArchivedAt := 0, PushedAt := 0, NotFound := false, Error := "" }]
        []).trans (by decide)⟩

end GoModArchived
